import Mathlib

/-!
Verification development for the sensor-acquisition subsystem
(components/jomjol_sensors and jomjol_flowcontroll/ClassFlowSensors).

The C++ sources are shallowly embedded: machine integers become `Nat`/`Int`
with explicit `% 2 ^ w` where the C code truncates, `float` arithmetic is
modelled over `ℚ` (every concrete value appearing in the claims below is
exactly representable in binary32, so the rational model agrees with the
float computation there), and the FreeRTOS task/bus environment is made
explicit as function parameters (hardware reply oracles, tick rate).
-/

namespace SensorSpec

/-! ## Dallas/Maxim CRC8 (sensor_ds18b20.cpp, SensorDS18B20::calculateCRC8)

The C loop, per input byte, runs 8 rounds of
`mix = (crc ^ inByte) & 1; crc >>= 1; if (mix) crc ^= 0x8C; inByte >>= 1`
starting from `crc = 0`. -/

/-- One inner round of `SensorDS18B20::calculateCRC8` on the pair
(crc, inByte). -/
def crc8Round (p : Nat × Nat) : Nat × Nat :=
  let mix := (p.1 ^^^ p.2) &&& 1
  let c := p.1 >>> 1
  (if mix ≠ 0 then c ^^^ 0x8C else c, p.2 >>> 1)

/-- The 8-round body of `calculateCRC8` for one data byte. -/
def crc8Byte (crc byte : Nat) : Nat :=
  (crc8Round (crc8Round (crc8Round (crc8Round
    (crc8Round (crc8Round (crc8Round (crc8Round (crc, byte))))))))).1

/-- `SensorDS18B20::calculateCRC8(data, len)`: seed 0, polynomial 0x8C
(reflected Dallas/Maxim), iterated over the byte sequence. -/
def calculateCRC8 (data : List Nat) : Nat :=
  data.foldl crc8Byte 0

/-- The scratchpad CRC gate of `SensorDS18B20::readScratchpad`
(line 361): `calculateCRC8(data, 8) == data[8]` on the 9-byte buffer. -/
def scratchpadCRCok (d : List Nat) : Bool :=
  calculateCRC8 (d.take 8) == d.getD 8 0

/-- The raw-temperature decode of `SensorDS18B20::readScratchpad`
(lines 368-370): `int16_t rawTemp = (data[1] << 8) | data[0];
float temp = rawTemp / 16.0f`, with the two's-complement 16-bit cast made
explicit and the float division modelled over `ℚ` (exact for these values). -/
def ds18b20ScratchpadTemp (b0 b1 : Nat) : ℚ :=
  let raw : Nat := ((b1 <<< 8) ||| b0) % 65536
  let signed : Int := if raw ≥ 32768 then (raw : Int) - 65536 else (raw : Int)
  (signed : ℚ) / 16

/-! ## Sensirion CRC8 (sensor_sht3x.cpp, SensorSHT3x::calculateCRC)

Seed 0xFF, polynomial 0x31, MSB first; `crc` is a `uint8_t`, so the left
shift truncates modulo 256. -/

/-- One inner round of `SensorSHT3x::calculateCRC`:
`if (crc & 0x80) crc = (crc << 1) ^ 0x31; else crc = crc << 1;`
with the `uint8_t` truncation written as `% 256`. -/
def shtCrcRound (crc : Nat) : Nat :=
  if crc &&& 0x80 ≠ 0 then ((crc <<< 1) ^^^ 0x31) % 256 else (crc <<< 1) % 256

/-- Iterate `shtCrcRound` the given number of times (the code's inner
`for bit in 0..8`). -/
def shtCrcRounds : Nat → Nat → Nat
  | 0, crc => crc
  | n + 1, crc => shtCrcRounds n (shtCrcRound crc)

/-- `SensorSHT3x::calculateCRC(data, len)`: seed 0xFF, per byte
`crc ^= data[i]` followed by 8 rounds of `shtCrcRound`. -/
def calculateCRC_SHT (data : List Nat) : Nat :=
  data.foldl (fun crc b => shtCrcRounds 8 (crc ^^^ b)) 0xFF

/-- The CRC gate of `SensorSHT3x::readTask` (lines 143-156): the frame is
accepted only when `calculateCRC(&data[0], 2) == data[2]` and
`calculateCRC(&data[3], 2) == data[5]`; either mismatch rejects it. -/
def sht3xFrameOk (d0 d1 d2 d3 d4 d5 : Nat) : Bool :=
  (calculateCRC_SHT [d0, d1] == d2) && (calculateCRC_SHT [d3, d4] == d5)

/-- The cached reading of `SensorSHT3x` (fields `_temperature`,
`_humidity`), modelled over `ℚ`. -/
structure SHT3xReading where
  temperature : ℚ
  humidity : ℚ

/-- The validate-and-convert step of `SensorSHT3x::readTask`
(lines 143-163): when both CRCs match, the raw 16-bit values
`rawTemp = (data[0] << 8) | data[1]` and `rawHum = (data[3] << 8) | data[4]`
are converted via `-45 + 175*raw/65535` and `100*raw/65535`; on a CRC
mismatch the cached reading is left untouched. -/
def sht3xProcessFrame (d0 d1 d2 d3 d4 d5 : Nat) (st : SHT3xReading) : SHT3xReading :=
  if sht3xFrameOk d0 d1 d2 d3 d4 d5 then
    let rawTemp : Nat := (d0 <<< 8) ||| d1
    let rawHum : Nat := (d3 <<< 8) ||| d4
    { temperature := -45 + 175 * (rawTemp : ℚ) / 65535,
      humidity := 100 * (rawHum : ℚ) / 65535 }
  else st

/-! ## Scheduling (sensor_manager.cpp, SensorBase::shouldRead and
SensorManager::update) -/

/-- `SensorBase::shouldRead(flowInterval)` (lines 69-85): the effective
interval is the sensor's own `_readInterval`, or `flowInterval` when
`_readInterval < 0`; a non-positive effective interval never reads;
otherwise read exactly when `now - _lastRead >= interval`.
Times are `time_t`/`int`, modelled as `Int`. -/
def shouldRead (readInterval lastRead now flowInterval : Int) : Bool :=
  let interval := if readInterval < 0 then flowInterval else readInterval
  if interval ≤ 0 then false
  else decide (now - lastRead ≥ interval)

/-- The scheduling-relevant state of one sensor held by the manager. -/
structure SensorSched where
  readInterval : Int
  lastRead : Int

/-- Whether one iteration of the loop in `SensorManager::update(flowInterval)`
(lines 515-540) calls `readData()` on the given sensor: the manager must be
enabled, sensors with a positive custom interval are skipped
(`if (sensor->getReadInterval() > 0) continue`), and the rest are read
exactly when `shouldRead(flowInterval)` holds. -/
def updateTriggersSensor (enabled : Bool) (flowInterval now : Int) (s : SensorSched) : Bool :=
  enabled && !(decide (s.readInterval > 0)) &&
    shouldRead s.readInterval s.lastRead now flowInterval

/-- The list of per-sensor trigger decisions of one `SensorManager::update`
call. -/
def updateTriggers (enabled : Bool) (flowInterval now : Int) (sensors : List SensorSched) :
    List Bool :=
  sensors.map (updateTriggersSensor enabled flowInterval now)

/-- Whether `SensorBase::startPeriodicTask` (lines 210-246) creates a
dedicated periodic task: it returns without creating one when
`_readInterval <= 0` (follow-flow mode) and creates it otherwise. -/
def startPeriodicTaskCreates (readInterval : Int) : Bool :=
  !(decide (readInterval ≤ 0))

/-- The flow-interval value used for the first sensor reading in
`ClassFlowSensors::initializeEarly` (lines 251-266): 0 when no flow
controller is attached, else the controller's auto interval in seconds. -/
def initializeEarlyFlowInterval (hasController : Bool) (autoIntervalSeconds : Int) : Int :=
  if hasController then autoIntervalSeconds else 0

/-! ## DS18B20 public accessors (sensor_ds18b20.cpp, getTemperature and
getRomId) -/

/-- Uppercase hex digit, as produced by `snprintf` with `%02X`. -/
def hexDigitChar (n : Nat) : Char :=
  if n < 10 then Char.ofNat (48 + n) else Char.ofNat (55 + n)

/-- Two-digit uppercase hex rendering of a byte (`%02X` for values < 256). -/
def byteToHex (b : Nat) : String :=
  String.mk [hexDigitChar (b / 16), hexDigitChar (b % 16)]

/-- `SensorDS18B20::getTemperature(index)` (lines 647-653): the cached
temperature at `index` when `0 <= index < _temperatures.size()`, else 0.0. -/
def getTemperature (temps : List ℚ) (index : Int) : ℚ :=
  if 0 ≤ index ∧ index < temps.length then temps.getD index.toNat 0 else 0

/-- The placeholder returned by `SensorDS18B20::getRomId` for an
out-of-range index (line 669). -/
def romIdPlaceholder : String := "28-00000000000000"

/-- `SensorDS18B20::getRomId(index)` (lines 655-670): in range, format
`"%02X-%02X%02X%02X%02X%02X%02X%02X"` applied to bytes
[0], [6], [5], [4], [3], [2], [1], [7] of the cached 8-byte ROM;
out of range, the placeholder. -/
def getRomId (romIds : List (List Nat)) (index : Int) : String :=
  if 0 ≤ index ∧ index < romIds.length then
    let rom := romIds.getD index.toNat []
    byteToHex (rom.getD 0 0) ++ "-" ++ byteToHex (rom.getD 6 0) ++
      byteToHex (rom.getD 5 0) ++ byteToHex (rom.getD 4 0) ++
      byteToHex (rom.getD 3 0) ++ byteToHex (rom.getD 2 0) ++
      byteToHex (rom.getD 1 0) ++ byteToHex (rom.getD 7 0)
  else romIdPlaceholder

/-! ## Non-blocking read-cycle entry point (sensor_ds18b20.cpp
SensorDS18B20::readData/readTask, sensor_sht3x.cpp
SensorSHT3x::readData/readTask) -/

/-- Driver state relevant to the non-blocking read-cycle entry point:
`_initialized`, and whether `_readTaskHandle` is non-null (the
in-progress marker). -/
structure DriverTaskState where
  initialized : Bool
  marker : Bool

/-- `SensorDS18B20::readData` (lines 599-640) and the structurally
identical `SensorSHT3x::readData` (lines 213-254): returns
(new state, returned value, whether a background read task was spawned).
Not initialized, or marker already set, returns false without spawning;
otherwise a task is spawned and the marker set, unless task creation
fails (`createOk` models the `xTaskCreatePinnedToCore` result), in which
case the marker is reset to null and false is returned. -/
def readDataStep (createOk : Bool) (s : DriverTaskState) : DriverTaskState × Bool × Bool :=
  if !s.initialized then (s, false, false)
  else if s.marker then (s, false, false)
  else if createOk then ({ s with marker := true }, true, true)
  else ({ s with marker := false }, false, false)

/-- The shared-state actions at the tail of the background read task
(`SensorDS18B20::readTask` lines 580-597, `SensorSHT3x::readTask`
lines 193-211), after the per-sensor retry loop has finished. -/
inductive TaskAct
  | setReadSuccess
  | setLastRead
  | publishMQTT
  | publishInfluxDB
  | clearMarker
  | exitTask
deriving DecidableEq

/-- The action sequence the background task executes before terminating:
store `_readSuccess`; on success stamp `_lastRead` and publish to
MQTT/InfluxDB; finally clear `_readTaskHandle` and call
`vTaskDelete(NULL)`. -/
def readTaskTail (anySuccess : Bool) : List TaskAct :=
  (if anySuccess then
    [TaskAct.setReadSuccess, TaskAct.setLastRead, TaskAct.publishMQTT,
      TaskAct.publishInfluxDB]
  else [TaskAct.setReadSuccess]) ++ [TaskAct.clearMarker, TaskAct.exitTask]

/-- Effect of one task action on the driver state: only `clearMarker`
(the write `_readTaskHandle = nullptr`) touches the marker. -/
def applyTaskAct (s : DriverTaskState) : TaskAct → DriverTaskState
  | TaskAct.clearMarker => { s with marker := false }
  | _ => s

/-! ## Manager initialization (sensor_manager.cpp,
SensorManager::initFromConfig and addSensorError) -/

/-- Sensor initialization status categories (sensor_manager.h). -/
inductive SensorInitStatus
  | failedBusInit
  | failedNoDevice
  | failedOther
deriving DecidableEq

/-- A recorded sensor error (sensor_manager.h `SensorError`; the free-text
message is not modelled). `SensorManager::addSensorError` appends exactly
one such entry per call. -/
structure SensorError where
  sensorName : String
  status : SensorInitStatus
  retryCount : Nat
deriving DecidableEq

/-- `SensorManager::SENSOR_INIT_RETRY_COUNT` (sensor_manager.h). -/
def SENSOR_INIT_RETRY_COUNT : Nat := 3

/-- The environment `SensorManager::initFromConfig` runs against: the pins
resolved by `scanGPIOConfig` (-1 when not configured), the enable flags of
the two config-map entries (`ClassFlowSensors::ReadParameter` only ever
creates the "SHT3x" and "DS18B20" entries), and hardware reply oracles
giving the outcome of each initialization attempt. -/
structure InitEnv where
  sdaPin : Int
  sclPin : Int
  onewirePin : Int
  sht3xEnabled : Bool
  ds18b20Enabled : Bool
  i2cInitOk : Nat → Bool
  sht3xInitOk : Nat → Bool
  ds18b20InitOk : Nat → Bool

/-- The bounded retry loop `for (retry = 0; retry < SENSOR_INIT_RETRY_COUNT; ...)`
with early exit on the first success. -/
def retrySucceeds (ok : Nat → Bool) : Bool :=
  (List.range SENSOR_INIT_RETRY_COUNT).any ok

/-- Result of `SensorManager::initFromConfig`: the returned value,
`_enabled`, the names of the working sensors pushed to `_sensors`, and the
accumulated `_sensorErrors`. -/
structure InitResult where
  returned : Bool
  enabled : Bool
  sensors : List String
  errors : List SensorError

/-- The SHT3x part of `initFromConfig` (lines 346-428) as a function of
its decision atoms: with unconfigured I2C pins, one configuration error
with zero retries; with the I2C bus failing all retries, one bus-init
error; with the sensor failing all init retries, one no-device error;
otherwise the sensor is added. -/
def initSHT3xBranchCore (enabled pinsOk busOk devOk : Bool) :
    List String × List SensorError :=
  if enabled then
    if pinsOk then
      if busOk then
        if devOk then (["SHT3x"], [])
        else ([], [⟨"SHT3x", SensorInitStatus.failedNoDevice, SENSOR_INIT_RETRY_COUNT⟩])
      else ([], [⟨"SHT3x", SensorInitStatus.failedBusInit, SENSOR_INIT_RETRY_COUNT⟩])
    else ([], [⟨"SHT3x", SensorInitStatus.failedOther, 0⟩])
  else ([], [])

/-- The SHT3x branch applied to the environment: the pin test is
`sdaPin >= 0 && sclPin >= 0`, and both the I2C bus bring-up and the
sensor's `init()` get `SENSOR_INIT_RETRY_COUNT` attempts. -/
def initSHT3xBranch (env : InitEnv) : List String × List SensorError :=
  initSHT3xBranchCore env.sht3xEnabled
    (decide (env.sdaPin ≥ 0) && decide (env.sclPin ≥ 0))
    (retrySucceeds env.i2cInitOk) (retrySucceeds env.sht3xInitOk)

/-- The DS18B20 part of `initFromConfig` (lines 430-487) as a function of
its decision atoms: with an unconfigured 1-Wire pin, one configuration
error with zero retries; with the sensor failing all init retries, one
no-device error; otherwise the sensor is added. -/
def initDS18B20BranchCore (enabled pinOk devOk : Bool) :
    List String × List SensorError :=
  if enabled then
    if pinOk then
      if devOk then (["DS18B20"], [])
      else ([], [⟨"DS18B20", SensorInitStatus.failedNoDevice, SENSOR_INIT_RETRY_COUNT⟩])
    else ([], [⟨"DS18B20", SensorInitStatus.failedOther, 0⟩])
  else ([], [])

/-- The DS18B20 branch applied to the environment. -/
def initDS18B20Branch (env : InitEnv) : List String × List SensorError :=
  initDS18B20BranchCore env.ds18b20Enabled (decide (env.onewirePin ≥ 0))
    (retrySucceeds env.ds18b20InitOk)

/-- `SensorManager::initFromConfig` (lines 318-513): with no sensor
enabled it returns true with the manager disabled; otherwise it runs the
SHT3x branch then the DS18B20 branch and always ends in `return true`. -/
def initFromConfig (env : InitEnv) : InitResult :=
  if !(env.sht3xEnabled || env.ds18b20Enabled) then
    { returned := true, enabled := false, sensors := [], errors := [] }
  else
    let sht := initSHT3xBranch env
    let ds := initDS18B20Branch env
    { returned := true, enabled := true,
      sensors := sht.1 ++ ds.1, errors := sht.2 ++ ds.2 }

/-! ## Dedicated periodic task (sensor_manager.cpp,
SensorBase::sensorTask) -/

/-- The maximum unsigned 32-bit value used by the overflow guard. -/
def UINT32_MAX_VAL : Nat := 4294967295

/-- The cap of `SensorBase::sensorTask` (lines 127-135):
`maxSafeMs = UINT32_MAX * 1000 / configTICK_RATE_HZ`. The FreeRTOS tick
rate is a platform configuration constant outside these sources (the
ESP-IDF default is 100 Hz), so it is kept as a parameter. -/
def maxSafeMs (tickRateHz : Nat) : Nat := UINT32_MAX_VAL * 1000 / tickRateHz

/-- The interval the task actually sleeps between read cycles
(lines 127-135, 204-206): `intervalMs = _readInterval * 1000`, capped at
`maxSafeMs` to avoid tick-count overflow. For whole-second intervals the
`pdMS_TO_TICKS` conversion is exact, so the model stays in milliseconds. -/
def intervalSleepMs (tickRateHz readIntervalSec : Nat) : Nat :=
  if readIntervalSec * 1000 > maxSafeMs tickRateHz then maxSafeMs tickRateHz
  else readIntervalSec * 1000

/-- The completion-wait loop of `SensorBase::sensorTask` (lines 172-195):
poll `isReadInProgress()` and delay 100 ms per iteration, giving up after
3000 iterations (5 minutes). `p k` is the polled value at the k-th check;
the result is the number of 100 ms delays executed. -/
def waitLoopIters (p : Nat → Bool) : Nat → Nat → Nat
  | 0, k => k
  | fuel + 1, k =>
    if p k then (if k + 1 ≥ 3000 then k + 1 else waitLoopIters p fuel (k + 1))
    else k

/-- Total time (ms) `sensorTask` spends waiting for the in-flight read
cycle of one iteration to complete. -/
def sensorTaskWaitMs (p : Nat → Bool) : Nat := 100 * waitLoopIters p 3000 0

/-! ## ROM search (sensor_ds18b20.cpp, SensorDS18B20::performRomSearch)

The 8-byte `romBuffer` is held as a natural number below 2^64; the code
stores bit `idBitNumber - 1` into byte `romByteNumber` under mask
`romByteMask`, which is plain LSB-first bit order across the buffer, so
bit i of the buffer is `Nat.testBit` at i. The simulated bus is a list of
device ROM values: a reset sees a presence pulse iff the list is
nonempty, every device participates at the start of a pass, reads are
wired-AND (any participant sending 0 pulls the line low), and a device
stops participating when the written search direction disagrees with its
bit, exactly as on a physical 1-Wire bus. -/

/-- Byte j of a ROM value (byte 0 is the family code). -/
def romByte (r j : Nat) : Nat := r / 2 ^ (8 * j) % 256

/-- Wired-AND bus read of ROM bit i over the still-participating
devices. -/
def busReadBit (active : List Nat) (i : Nat) : Bool :=
  decide (∀ d ∈ active, d.testBit i = true)

/-- Wired-AND bus read of the complement of ROM bit i. -/
def busReadCmpBit (active : List Nat) (i : Nat) : Bool :=
  decide (∀ d ∈ active, d.testBit i = false)

/-- The `searchDirection` chosen at bit i (the code's
`idBitNumber - 1`): on a discrepancy (both reads 0), replay the previous
ROM bit while before `lastDiscrepancy`, take 1 exactly at it, 0 past it;
with no discrepancy, follow the bit read. In the replay region the
evolving buffer still holds the previous pass's bit at the position being
read, so that read is `prev.testBit i`. -/
def passDir (D prev : Nat) (active : List Nat) (i : Nat) : Bool :=
  if !busReadBit active i && !busReadCmpBit active i then
    (if i + 1 < D then prev.testBit i else decide (i + 1 = D))
  else busReadBit active i

/-- The `lastZero` update at bit i: record position `idBitNumber = i + 1`
when a discrepancy was resolved towards 0. -/
def passLz (D prev : Nat) (active : List Nat) (i lz : Nat) : Nat :=
  if (!busReadBit active i && !busReadCmpBit active i) && !passDir D prev active i
  then i + 1 else lz

/-- The 64-bit loop of one search pass (lines 195-252). State: bit index
i, the devices still participating, the bits chosen so far (`acc`), and
`lastZero`. Returns (all 64 bits completed?, chosen bits, lastZero); the
pass aborts when a bit and its complement both read 1 (no device
responding). The write-only local `lastFamilyDiscrepancy` of the source is
dead state and not modelled. -/
def passLoop (D prev : Nat) : Nat → Nat → List Nat → List Bool → Nat →
    Bool × List Bool × Nat
  | 0, _, _, acc, lastZero => (true, acc, lastZero)
  | fuel + 1, i, active, acc, lastZero =>
    if busReadBit active i && busReadCmpBit active i then (false, acc, lastZero)
    else
      passLoop D prev fuel (i + 1)
        (active.filter (fun d => d.testBit i == passDir D prev active i))
        (acc ++ [passDir D prev active i]) (passLz D prev active i lastZero)

/-- Value of a bit list, least-significant bit first. -/
def bitsToNat : List Bool → Nat
  | [] => 0
  | b :: bs => (if b then 1 else 0) + 2 * bitsToNat bs

/-- The ROM buffer after a pass: the freshly written bits overlay the low
positions and the bits a prematurely aborted pass never reached keep the
previous pass's value. -/
def mergeRom (acc : List Bool) (prev : Nat) : Nat :=
  bitsToNat acc + 2 ^ acc.length * (prev / 2 ^ acc.length)

/-- The recording gate of a completed pass (lines 255-272): the CRC8 over
bytes 0..6 of the buffer must equal byte 7, and the family code byte must
be 0x28 (other family codes are only logged). -/
def romAccepted (rom : Nat) : Bool :=
  (calculateCRC8 ((List.range 7).map (romByte rom)) == romByte rom 7) &&
    (romByte rom 0 == 0x28)

/-- The `while (!lastDeviceFlag)` loop of `performRomSearch`
(lines 178-281): each pass resets the bus (stopping when no presence),
runs the 64-bit loop, records the completed buffer when accepted, then
sets `lastDiscrepancy = lastZero` and finishes when it is 0. Discovered
identifiers accumulate most-recent-first in `results`; `none` means the
fuel ran out before `lastDeviceFlag` was set. -/
def searchLoop (devs : List Nat) : Nat → Nat → Nat → List Nat → Option (List Nat)
  | 0, _, _, _ => none
  | fuel + 1, lastDiscrepancy, rom, results =>
    if devs.isEmpty then some results.reverse
    else
      match passLoop lastDiscrepancy rom 64 0 devs [] 0 with
      | (completed, bits, lastZero) =>
        let rom2 := mergeRom bits rom
        let results2 :=
          if completed && romAccepted rom2 then rom2 :: results else results
        if lastZero = 0 then some results2.reverse
        else searchLoop devs fuel lastZero rom2 results2

/-- `SensorDS18B20::performRomSearch` on a simulated bus:
`lastDiscrepancy = 0`, zeroed ROM buffer, empty result list. -/
def performRomSearch (devs : List Nat) (fuel : Nat) : Option (List Nat) :=
  searchLoop devs fuel 0 0 []

/-! ### Specification vocabulary for the search proof -/

/-- Two ROM values agree on every bit below i. -/
def agreesBelow (a b i : Nat) : Prop :=
  ∀ j, j < i → a.testBit j = b.testBit j

instance (a b i : Nat) : Decidable (agreesBelow a b i) := by
  unfold agreesBelow; infer_instance

/-- The strict order in which the search enumerates ROM values: at the
first differing bit position (LSB first) the smaller value has a 0. -/
def romLt (a b : Nat) : Prop :=
  ∃ i, i < 64 ∧ agreesBelow a b i ∧ a.testBit i = false ∧ b.testBit i = true

instance (a b : Nat) : Decidable (romLt a b) := by
  unfold romLt; infer_instance

/-- Position k (1-indexed, the code's `idBitNumber`) is a branch point of
`r` within `devs`: `r` carries a 0 at bit k-1 while some device agreeing
with `r` below it carries a 1 there. -/
def branchProp (devs : List Nat) (r k : Nat) : Prop :=
  0 < k ∧ k ≤ 64 ∧ r.testBit (k - 1) = false ∧
    ∃ s ∈ devs, agreesBelow s r (k - 1) ∧ s.testBit (k - 1) = true

instance (devs : List Nat) (r k : Nat) : Decidable (branchProp devs r k) := by
  unfold branchProp; infer_instance

/-- The `lastZero` value a pass discovering `r` computes: the highest
branch point of `r`, or 0 when there is none. -/
def branchPos (devs : List Nat) (r : Nat) : Nat :=
  Nat.findGreatest (branchProp devs r) 64

/-- A device value matches the bits chosen so far in a pass. -/
def matchesAcc (d : Nat) (acc : List Bool) : Prop :=
  ∀ j, j < acc.length → d.testBit j = acc.getD j false

/-- The devices a pass entered with state (lastDiscrepancy D, previous
buffer r) can still discover: all of them on a fresh search (D = 0),
otherwise those agreeing with r below bit D-1 and carrying a 1 there. -/
def inTarget (devs : List Nat) (D r s : Nat) : Prop :=
  s ∈ devs ∧ (D = 0 ∨ (agreesBelow s r (D - 1) ∧ s.testBit (D - 1) = true))

/-- Bit position k qualifies for `lastZero` along a chosen bit sequence:
the sequence has a 0 there and some device following it below k carries a
1 there. -/
def lzQ (devs : List Nat) (acc : List Bool) (k : Nat) : Prop :=
  acc.getD k false = false ∧
    ∃ s ∈ devs, (∀ m, m < k → s.testBit m = acc.getD m false) ∧
      s.testBit k = true

/-- Invariant of the 64-bit pass loop at bit index i. -/
structure PassInv (devs : List Nat) (D r i : Nat) (active : List Nat)
    (acc : List Bool) (lz : Nat) : Prop where
  accLen : acc.length = i
  activeMem : ∀ d, d ∈ active ↔ (d ∈ devs ∧ matchesAcc d acc)
  replay : ∀ j, j < i → j + 1 < D → acc.getD j false = r.testBit j
  branchBit : ∀ j, j < i → j + 1 = D → acc.getD j false = true
  targetMatch : ∃ s, inTarget devs D r s ∧ matchesAcc s acc
  targetGe : ∀ s, inTarget devs D r s → matchesAcc s acc ∨
    ∃ k, k < i ∧ (∀ m, m < k → s.testBit m = acc.getD m false) ∧
      s.testBit k = true ∧ acc.getD k false = false
  postTarget : D ≤ i → ∀ d ∈ devs, matchesAcc d acc → inTarget devs D r d
  lzSpec : (lz = 0 ∧ ∀ k, k < i → ¬ lzQ devs acc k) ∨
    (∃ k, k < i ∧ lz = k + 1 ∧ lzQ devs acc k ∧
      ∀ m, k < m → m < i → ¬ lzQ devs acc m)

/-- Invariant of the pass-repetition loop: either nothing was found yet
(initial state), or the last discovered value r0 has every
strictly-smaller device already in `results` and `lastDiscrepancy` is its
branch position. -/
def SearchInv (devs : List Nat) : Option Nat → Nat → Nat → List Nat → Prop
  | none, D, rom, results => D = 0 ∧ rom = 0 ∧ results = []
  | some r0, D, rom, results =>
    rom = r0 ∧ r0 ∈ devs ∧ D = branchPos devs r0 ∧ D ≠ 0 ∧
      results.Nodup ∧ (∀ x, x ∈ results ↔ (x ∈ devs ∧ (x = r0 ∨ romLt x r0)))

/-- Devices not yet discovered at a search-loop state. -/
def remainingSet (devs : List Nat) : Option Nat → Finset Nat
  | none => devs.toFinset
  | some r0 => devs.toFinset.filter (fun x => romLt r0 x)

/-! ## Theorems -/

/-- C3: the Dallas CRC8 routine is a pure function with seed 0 (empty input
gives 0); for every byte sequence B, appending `calculateCRC8 B` and then
re-validating the CRC over the leading bytes of the extended sequence
against its appended trailing byte succeeds; in particular every 9-byte
scratchpad whose last byte is the CRC8 of its first 8 bytes passes the
`readScratchpad` gate `calculateCRC8(data, 8) == data[8]`. -/
theorem crc8_roundtrip :
    calculateCRC8 [] = 0 ∧
    (∀ B : List Nat,
      calculateCRC8 ((B ++ [calculateCRC8 B]).take B.length) =
        (B ++ [calculateCRC8 B]).getD B.length 0) ∧
    (∀ d : List Nat, d.length = 8 →
      scratchpadCRCok (d ++ [calculateCRC8 d]) = true) := by
  refine ⟨rfl, ?_, ?_⟩
  · intro B
    rw [List.take_left]
    simp [List.getD]
  · intro d hd
    have ht : (d ++ [calculateCRC8 d]).take 8 = d := by
      rw [← hd, List.take_left]
    have hg : (d ++ [calculateCRC8 d]).getD 8 0 = calculateCRC8 d := by
      rw [← hd]
      simp [List.getD]
    simp only [scratchpadCRCok, ht, hg, beq_self_eq_true]

/-- C3 witness: the round-trip and the 9-byte scratchpad gate at a concrete
byte sequence. -/
theorem crc8_roundtrip_witness :
    scratchpadCRCok ([0x91, 0x01, 0x4B, 0x46, 0x7F, 0xFF, 0x0C, 0x10] ++
      [calculateCRC8 [0x91, 0x01, 0x4B, 0x46, 0x7F, 0xFF, 0x0C, 0x10]]) = true :=
  crc8_roundtrip.2.2 [0x91, 0x01, 0x4B, 0x46, 0x7F, 0xFF, 0x0C, 0x10] (by decide)

/-- C6: the SHT3x CRC routine has seed 0xFF (empty input) and matches the
Sensirion reference vector CRC(0xBE, 0xEF) = 0x92 (polynomial 0x31,
MSB first); it differs from the Dallas routine; a 6-byte frame is accepted
exactly when the CRC over the 2 temperature bytes matches trailing byte
data[2] and the CRC over the 2 humidity bytes matches trailing byte
data[5], and either mismatch leaves the cached reading untouched. -/
theorem sht3x_crc_convention :
    calculateCRC_SHT [] = 0xFF ∧
    calculateCRC_SHT [0xBE, 0xEF] = 0x92 ∧
    calculateCRC_SHT [0xBE, 0xEF] ≠ calculateCRC8 [0xBE, 0xEF] ∧
    (∀ d0 d1 d2 d3 d4 d5 : Nat,
      sht3xFrameOk d0 d1 d2 d3 d4 d5 = true ↔
        (calculateCRC_SHT [d0, d1] = d2 ∧ calculateCRC_SHT [d3, d4] = d5)) ∧
    (∀ d0 d1 d2 d3 d4 d5 : Nat, ∀ st,
      sht3xFrameOk d0 d1 d2 d3 d4 d5 = false →
        sht3xProcessFrame d0 d1 d2 d3 d4 d5 st = st) := by
  refine ⟨by decide, by decide, by decide, ?_, ?_⟩
  · intro d0 d1 d2 d3 d4 d5
    simp [sht3xFrameOk]
  · intro d0 d1 d2 d3 d4 d5 st h
    simp [sht3xProcessFrame, h]

/-- C6 witness: a frame whose humidity CRC byte is wrong is rejected and
leaves the cached reading unchanged. -/
theorem sht3x_crc_convention_witness :
    sht3xProcessFrame 0xBE 0xEF 0x92 0xBE 0xEF 0x93 ⟨21, 55⟩ = ⟨21, 55⟩ :=
  sht3x_crc_convention.2.2.2.2 0xBE 0xEF 0x92 0xBE 0xEF 0x93 ⟨21, 55⟩ (by decide)

/-- C7: the DS18B20 scratchpad decode interprets the 16-bit
two's-complement raw value as raw/16 °C, so raw 0x0191 (data bytes
0x91, 0x01) decodes to exactly 25.0625; an accepted SHT3x frame is
converted via temp = -45 + 175*raw/65535 and humidity = 100*raw/65535,
and at raw 0x0550 the temperature formula gives exactly -542215/13107,
within 1/1000 of the decimal value -41.3684. -/
theorem raw_value_conversion :
    ds18b20ScratchpadTemp 0x91 0x01 = 25.0625 ∧
    (∀ d0 d1 d2 d3 d4 d5 : Nat, ∀ st,
      sht3xFrameOk d0 d1 d2 d3 d4 d5 = true →
        (sht3xProcessFrame d0 d1 d2 d3 d4 d5 st).temperature =
            -45 + 175 * ((((d0 <<< 8) ||| d1 : Nat)) : ℚ) / 65535 ∧
        (sht3xProcessFrame d0 d1 d2 d3 d4 d5 st).humidity =
            100 * ((((d3 <<< 8) ||| d4 : Nat)) : ℚ) / 65535) ∧
    (-45 + 175 * ((0x0550 : ℚ)) / 65535 = -542215 / 13107 ∧
      |(-45 + 175 * ((0x0550 : ℚ)) / 65535) - (-41.3684)| < 1 / 1000) := by
  refine ⟨?_, ?_, by norm_num, by rw [abs_lt]; constructor <;> norm_num⟩
  · have h : ((0x01 <<< 8) ||| 0x91) % 65536 = 401 := by decide
    rw [ds18b20ScratchpadTemp, h]
    norm_num
  · intro d0 d1 d2 d3 d4 d5 st h
    rw [sht3xProcessFrame, if_pos h]
    exact ⟨rfl, rfl⟩

/-- C7 witness: the SHT3x conversion formulas applied through an accepted
concrete frame (trailing CRC bytes computed by the Sensirion routine). -/
theorem raw_value_conversion_witness :
    (sht3xProcessFrame 0x05 0x50 (calculateCRC_SHT [0x05, 0x50])
        0x80 0x00 (calculateCRC_SHT [0x80, 0x00]) ⟨0, 0⟩).temperature =
      -45 + 175 * ((((0x05 <<< 8) ||| 0x50 : Nat)) : ℚ) / 65535 :=
  (raw_value_conversion.2.1 0x05 0x50 (calculateCRC_SHT [0x05, 0x50])
    0x80 0x00 (calculateCRC_SHT [0x80, 0x00]) ⟨0, 0⟩ (by decide)).1

/-- C4: with the manager enabled, a follow-cadence sensor (interval
sentinel -1) is triggered by update with external interval F > 0 exactly
when at least F seconds elapsed since its last read; tick(30) at 10-second
spacing triggers only on the third call; a sensor with a positive custom
interval is never triggered by update, and only positive custom intervals
cause startPeriodicTask to create a dedicated periodic task. -/
theorem schedule_follow_vs_custom :
    (∀ F now last : Int, 0 < F →
      (updateTriggersSensor true F now ⟨-1, last⟩ = true ↔ now - last ≥ F)) ∧
    (∀ (F now : Int) (s : SensorSched), s.readInterval > 0 →
      updateTriggersSensor true F now s = false) ∧
    (updateTriggersSensor true 30 10 ⟨-1, 0⟩ = false ∧
      updateTriggersSensor true 30 20 ⟨-1, 0⟩ = false ∧
      updateTriggersSensor true 30 30 ⟨-1, 0⟩ = true) ∧
    startPeriodicTaskCreates (-1) = false ∧
    (∀ c : Int, 0 < c → startPeriodicTaskCreates c = true) := by
  refine ⟨?_, ?_, by decide, by decide, ?_⟩
  · intro F now last hF
    simp only [updateTriggersSensor, shouldRead]
    norm_num
    omega
  · intro F now s hs
    simp [updateTriggersSensor, hs]
  · intro c hc
    simp [startPeriodicTaskCreates]
    omega

/-- C4 witness: the follow-cadence trigger condition at a concrete
instant. -/
theorem schedule_follow_vs_custom_witness :
    updateTriggersSensor true 30 45 ⟨-1, 0⟩ = true :=
  (schedule_follow_vs_custom.1 30 45 0 (by decide)).2 (by decide)

/-- C9: shouldRead returns false whenever the effective interval (the
sensor's own interval, or the flow interval when the sensor's interval is
negative) is zero or negative; consequently update with flow interval 0
triggers no sensor at all, in particular not during the first sensor
reading of early initialization, whose flow interval is 0 when no flow
controller is attached. -/
theorem shouldRead_nonpositive_interval :
    (∀ ri last now F : Int, (if ri < 0 then F else ri) ≤ 0 →
      shouldRead ri last now F = false) ∧
    (∀ (e : Bool) (now : Int) (ss : List SensorSched),
      ∀ b ∈ updateTriggers e 0 now ss, b = false) ∧
    (∀ (auto now : Int) (ss : List SensorSched),
      ∀ b ∈ updateTriggers true (initializeEarlyFlowInterval false auto) now ss,
        b = false) := by
  have key : ∀ ri last now F : Int, (if ri < 0 then F else ri) ≤ 0 →
      shouldRead ri last now F = false := by
    intro ri last now F h
    simp only [shouldRead]
    rw [if_pos h]
  have trig : ∀ (e : Bool) (now : Int) (s : SensorSched),
      updateTriggersSensor e 0 now s = false := by
    intro e now s
    simp only [updateTriggersSensor]
    by_cases hpos : s.readInterval > 0
    · simp [hpos]
    · rw [key s.readInterval s.lastRead now 0 (by omega)]
      simp
  refine ⟨key, ?_, ?_⟩
  · intro e now ss b hb
    simp only [updateTriggers, List.mem_map] at hb
    obtain ⟨s, _, rfl⟩ := hb
    exact trig e now s
  · intro auto now ss b hb
    simp only [initializeEarlyFlowInterval, if_neg Bool.false_ne_true] at hb
    simp only [updateTriggers, List.mem_map] at hb
    obtain ⟨s, _, rfl⟩ := hb
    exact trig true now s

/-- C9 witness: a follow-cadence sensor long overdue is still not triggered
by update(0). -/
theorem shouldRead_nonpositive_interval_witness :
    shouldRead (-1) 0 1000000 0 = false :=
  shouldRead_nonpositive_interval.1 (-1) 0 1000000 0 (by decide)

/-- C10: the DS18B20 accessors are total: any index outside
[0, count) yields temperature 0 and the ROM-id placeholder
"28-00000000000000"; an in-range index formats the cached 8-byte ROM as
family byte, then serial bytes 6 down to 1, then the CRC byte, as shown by
the general formatting equation and a concrete instance. -/
theorem ds18b20_accessors_total :
    (∀ (temps : List ℚ) (index : Int),
      ¬(0 ≤ index ∧ index < temps.length) → getTemperature temps index = 0) ∧
    (∀ (romIds : List (List Nat)) (index : Int),
      ¬(0 ≤ index ∧ index < romIds.length) → getRomId romIds index = romIdPlaceholder) ∧
    (∀ (romIds : List (List Nat)) (index : Int),
      0 ≤ index → index < romIds.length →
      getRomId romIds index =
        (let rom := romIds.getD index.toNat []
        byteToHex (rom.getD 0 0) ++ "-" ++ byteToHex (rom.getD 6 0) ++
          byteToHex (rom.getD 5 0) ++ byteToHex (rom.getD 4 0) ++
          byteToHex (rom.getD 3 0) ++ byteToHex (rom.getD 2 0) ++
          byteToHex (rom.getD 1 0) ++ byteToHex (rom.getD 7 0))) ∧
    getRomId [[0x28, 0x01, 0x02, 0x03, 0x04, 0x05, 0x06, 0xAB]] 0 =
      "28-060504030201AB" ∧
    getRomId [[0x28, 0x01, 0x02, 0x03, 0x04, 0x05, 0x06, 0xAB]] (-3) =
      romIdPlaceholder := by
  refine ⟨?_, ?_, ?_, by decide, by decide⟩
  · intro temps index h
    simp only [getTemperature, if_neg h]
  · intro romIds index h
    simp only [getRomId, if_neg h]
  · intro romIds index h1 h2
    simp only [getRomId, if_pos (And.intro h1 h2)]

/-- C10 witness: the accessors at concrete out-of-range indices. -/
theorem ds18b20_accessors_total_witness :
    getTemperature [(21 : ℚ)] 7 = 0 ∧ getRomId [] 0 = romIdPlaceholder :=
  ⟨ds18b20_accessors_total.1 [(21 : ℚ)] 7 (by decide),
    ds18b20_accessors_total.2.1 [] 0 (by decide)⟩

/-- C2: whenever the in-progress marker (`_readTaskHandle`) is set,
`readData` returns false, changes nothing and spawns no task; a spawn
happens only from a marker-clear state and sets the marker; and the
background read task clears the marker as its very last shared-state
action before terminating (`clearMarker` immediately precedes `exitTask`
in its tail, and replaying the tail leaves the marker cleared). -/
theorem readData_single_cycle :
    (∀ (ok : Bool) (s : DriverTaskState), s.marker = true →
      readDataStep ok s = (s, false, false)) ∧
    (∀ (ok : Bool) (s : DriverTaskState), (readDataStep ok s).2.2 = true →
      s.marker = false ∧ (readDataStep ok s).1.marker = true) ∧
    (∀ b : Bool, ∃ pre,
      readTaskTail b = pre ++ [TaskAct.clearMarker, TaskAct.exitTask] ∧
      TaskAct.clearMarker ∉ pre ∧ TaskAct.exitTask ∉ pre) ∧
    (∀ (b : Bool) (s : DriverTaskState),
      ((readTaskTail b).foldl applyTaskAct s).marker = false) := by
  refine ⟨?_, ?_, ?_, ?_⟩
  · rintro ok ⟨i, m⟩ h
    cases h
    cases i <;> cases ok <;> rfl
  · rintro ok ⟨i, m⟩ h
    cases i <;> cases m <;> cases ok <;> simp_all [readDataStep]
  · intro b
    cases b
    · exact ⟨[TaskAct.setReadSuccess], rfl, by decide, by decide⟩
    · exact ⟨[TaskAct.setReadSuccess, TaskAct.setLastRead, TaskAct.publishMQTT,
        TaskAct.publishInfluxDB], rfl, by decide, by decide⟩
  · rintro b ⟨i, m⟩
    cases b <;> rfl

/-- C2 witness: with the marker set, a concrete `readData` call returns
false without spawning. -/
theorem readData_single_cycle_witness :
    readDataStep true ⟨true, true⟩ = (⟨true, true⟩, false, false) :=
  readData_single_cycle.1 true ⟨true, true⟩ rfl

/-- C5: `initFromConfig` returns true for every input; an enabled sensor
contributes exactly one error entry under its name exactly when it does
not come up (and none when it does, or when disabled); each sensor's
branch outcome depends only on its own pins, enable flag and hardware
oracle; and in the concrete scenario where the SHT3x I2C bus permanently
fails while the DS18B20 bus is healthy, the manager still ends up with
DS18B20 working and exactly one bus-init error entry for SHT3x. -/
theorem initFromConfig_partial_failure :
    (∀ env, (initFromConfig env).returned = true) ∧
    (∀ env,
      ((initFromConfig env).errors.filter (fun e => e.sensorName == "SHT3x")).length =
        (if env.sht3xEnabled ∧ "SHT3x" ∉ (initFromConfig env).sensors then 1 else 0) ∧
      ((initFromConfig env).errors.filter (fun e => e.sensorName == "DS18B20")).length =
        (if env.ds18b20Enabled ∧ "DS18B20" ∉ (initFromConfig env).sensors then 1 else 0)) ∧
    (∀ env env', env.onewirePin = env'.onewirePin →
      env.ds18b20Enabled = env'.ds18b20Enabled →
      env.ds18b20InitOk = env'.ds18b20InitOk →
      initDS18B20Branch env = initDS18B20Branch env') ∧
    (∀ env env', env.sdaPin = env'.sdaPin → env.sclPin = env'.sclPin →
      env.sht3xEnabled = env'.sht3xEnabled →
      env.i2cInitOk = env'.i2cInitOk → env.sht3xInitOk = env'.sht3xInitOk →
      initSHT3xBranch env = initSHT3xBranch env') ∧
    ((initFromConfig ⟨0, 1, 4, true, true, fun _ => false, fun _ => true,
        fun _ => true⟩).sensors = ["DS18B20"] ∧
      (initFromConfig ⟨0, 1, 4, true, true, fun _ => false, fun _ => true,
        fun _ => true⟩).errors =
        [⟨"SHT3x", SensorInitStatus.failedBusInit, SENSOR_INIT_RETRY_COUNT⟩]) := by
  have core : ∀ e1 p1 b1 d1 e2 p2 d2 : Bool,
      (((initSHT3xBranchCore e1 p1 b1 d1).2 ++
          (initDS18B20BranchCore e2 p2 d2).2).filter
            (fun e => e.sensorName == "SHT3x")).length =
        (if e1 = true ∧ "SHT3x" ∉ ((initSHT3xBranchCore e1 p1 b1 d1).1 ++
            (initDS18B20BranchCore e2 p2 d2).1) then 1 else 0) ∧
      (((initSHT3xBranchCore e1 p1 b1 d1).2 ++
          (initDS18B20BranchCore e2 p2 d2).2).filter
            (fun e => e.sensorName == "DS18B20")).length =
        (if e2 = true ∧ "DS18B20" ∉ ((initSHT3xBranchCore e1 p1 b1 d1).1 ++
            (initDS18B20BranchCore e2 p2 d2).1) then 1 else 0) := by decide
  refine ⟨?_, ?_, ?_, ?_, rfl, rfl⟩
  · intro env
    unfold initFromConfig
    split <;> rfl
  · intro env
    unfold initFromConfig
    split
    · rename_i h
      simp only [Bool.not_or, Bool.and_eq_true, Bool.not_eq_true'] at h
      simp [h.1, h.2]
    · exact core env.sht3xEnabled _ _ _ env.ds18b20Enabled _ _
  · intro env env' h1 h2 h3
    unfold initDS18B20Branch
    rw [h1, h2, h3]
  · intro env env' h1 h2 h3 h4 h5
    unfold initSHT3xBranch
    rw [h1, h2, h3, h4, h5]

/-- C5 witness: the always-true return at a concrete environment with
everything failing. -/
theorem initFromConfig_partial_failure_witness :
    (initFromConfig ⟨-1, -1, -1, true, true, fun _ => false, fun _ => false,
      fun _ => false⟩).returned = true :=
  initFromConfig_partial_failure.1 _

/-- Helper bound for the completion-wait loop of `sensorTask`. -/
theorem waitLoopIters_le (p : Nat → Bool) :
    ∀ fuel k, waitLoopIters p fuel k ≤ fuel + k := by
  intro fuel
  induction fuel with
  | zero => intro k; simp [waitLoopIters]
  | succ n ih =>
    intro k
    unfold waitLoopIters
    split
    · split
      · omega
      · have := ih (k + 1)
        omega
    · omega

/-- C8 counterexample: the claim "consecutive triggers are separated by at
least the configured interval measured from completion" fails as stated.
At the ESP-IDF default tick rate of 100 Hz and a configured interval of
2147483647 s (INT_MAX, accepted by the config parser), the overflow guard
of `sensorTask` caps the sleep below the configured interval. -/
theorem sensorTask_interval_cap_counterexample :
    intervalSleepMs 100 2147483647 < 2147483647 * 1000 := by
  norm_num [intervalSleepMs, maxSafeMs, UINT32_MAX_VAL]

/-- C8 (amended): the dedicated periodic task loops trigger-wait-sleep,
where the completion wait polls every 100 ms and is bounded by 5 minutes
(300000 ms), after which it gives up and proceeds; the sleep separating a
cycle's completion from the next trigger is min(interval, cap) where the
cap is `UINT32_MAX * 1000 / tickRate` ms (the overflow guard); in
particular, whenever the configured interval does not exceed the cap
(any interval up to about 497 days at the default 100 Hz tick rate), the
separation is at least the configured interval. -/
theorem sensorTask_bounded_wait_and_interval (p : Nat → Bool)
    (tickRateHz readIntervalSec : Nat) (htick : 0 < tickRateHz) :
    sensorTaskWaitMs p ≤ 300000 ∧
    intervalSleepMs tickRateHz readIntervalSec =
      min (readIntervalSec * 1000) (maxSafeMs tickRateHz) ∧
    (readIntervalSec * 1000 ≤ maxSafeMs tickRateHz →
      intervalSleepMs tickRateHz readIntervalSec = readIntervalSec * 1000) := by
  refine ⟨?_, ?_, ?_⟩
  · have := waitLoopIters_le p 3000 0
    unfold sensorTaskWaitMs
    omega
  · unfold intervalSleepMs
    split
    · rename_i h
      omega
    · rename_i h
      omega
  · intro h
    unfold intervalSleepMs
    split
    · rename_i hgt
      omega
    · rfl

/-- C8 witness: bounded wait and the uncapped separation at a concrete
never-completing read, 100 Hz tick and a 5-second interval. -/
theorem sensorTask_bounded_wait_and_interval_witness :
    sensorTaskWaitMs (fun _ => true) ≤ 300000 ∧
    intervalSleepMs 100 5 = 5 * 1000 :=
  ⟨(sensorTask_bounded_wait_and_interval (fun _ => true) 100 5 (by decide)).1,
    (sensorTask_bounded_wait_and_interval (fun _ => true) 100 5 (by decide)).2.2
      (by norm_num [maxSafeMs, UINT32_MAX_VAL])⟩

/-! ### Helper lemmas for the ROM-search proof -/

theorem bitsToNat_lt (acc : List Bool) : bitsToNat acc < 2 ^ acc.length := by
  induction acc with
  | nil => simp [bitsToNat]
  | cons b bs ih =>
    have hlen : (b :: bs).length = bs.length + 1 := rfl
    rw [hlen, pow_succ]
    cases b
    · have e : bitsToNat (false :: bs) = 0 + 2 * bitsToNat bs := rfl
      rw [e]; omega
    · have e : bitsToNat (true :: bs) = 1 + 2 * bitsToNat bs := rfl
      rw [e]; omega

theorem bitsToNat_testBit (acc : List Bool) :
    ∀ j, (bitsToNat acc).testBit j = acc.getD j false := by
  induction acc with
  | nil =>
    intro j
    simp [bitsToNat, List.getD]
  | cons b bs ih =>
    intro j
    cases j with
    | zero =>
      rw [List.getD_cons_zero, Nat.testBit_zero]
      cases b
      · have e : bitsToNat (false :: bs) = 0 + 2 * bitsToNat bs := rfl
        rw [e]
        simp only [decide_eq_false_iff_not]
        omega
      · have e : bitsToNat (true :: bs) = 1 + 2 * bitsToNat bs := rfl
        rw [e]
        simp only [decide_eq_true_eq]
        omega
    | succ n =>
      rw [Nat.testBit_add_one, List.getD_cons_succ]
      have h2 : bitsToNat (b :: bs) / 2 = bitsToNat bs := by
        cases b
        · have e : bitsToNat (false :: bs) = 0 + 2 * bitsToNat bs := rfl
          rw [e]; omega
        · have e : bitsToNat (true :: bs) = 1 + 2 * bitsToNat bs := rfl
          rw [e]; omega
      rw [h2]
      exact ih n

theorem mergeRom_eq (acc : List Bool) (prev : Nat) (h : prev < 2 ^ acc.length) :
    mergeRom acc prev = bitsToNat acc := by
  unfold mergeRom
  rw [Nat.div_eq_of_lt h]
  ring

theorem getD_append_len (acc : List Bool) (b : Bool) :
    (acc ++ [b]).getD acc.length false = b := by
  simp [List.getD]

theorem matchesAcc_append (d : Nat) (acc : List Bool) (b : Bool) :
    matchesAcc d (acc ++ [b]) ↔ (matchesAcc d acc ∧ d.testBit acc.length = b) := by
  constructor
  · intro h
    refine ⟨?_, ?_⟩
    · intro j hj
      have hh := h j (by simp only [List.length_append, List.length_cons,
        List.length_nil]; omega)
      rwa [List.getD_append acc [b] false j hj] at hh
    · have hh := h acc.length (by simp)
      rwa [getD_append_len] at hh
  · rintro ⟨h1, h2⟩ j hj
    simp only [List.length_append, List.length_cons, List.length_nil] at hj
    rcases Nat.lt_or_ge j acc.length with hlt | hge
    · rw [List.getD_append acc [b] false j hlt]
      exact h1 j hlt
    · have hje : j = acc.length := by omega
      subst hje
      rw [getD_append_len]
      exact h2

theorem lzQ_append (devs : List Nat) (acc : List Bool) (b : Bool) (k : Nat)
    (h : k < acc.length) : lzQ devs (acc ++ [b]) k ↔ lzQ devs acc k := by
  unfold lzQ
  rw [List.getD_append acc [b] false k h]
  constructor
  · rintro ⟨h1, s, hs, hm, hb2⟩
    refine ⟨h1, s, hs, ?_, hb2⟩
    intro m hm2
    have := hm m hm2
    rwa [List.getD_append acc [b] false m (by omega)] at this
  · rintro ⟨h1, s, hs, hm, hb2⟩
    refine ⟨h1, s, hs, ?_, hb2⟩
    intro m hm2
    rw [List.getD_append acc [b] false m (by omega)]
    exact hm m hm2

theorem romLt_irrefl (a : Nat) : ¬ romLt a a := by
  rintro ⟨i, _, _, h1, h2⟩
  rw [h1] at h2
  exact Bool.false_ne_true h2

theorem romLt_asymm {a b : Nat} (h1 : romLt a b) : ¬ romLt b a := by
  rintro ⟨j, _, hagr2, hb0, ha1⟩
  obtain ⟨i, _, hagr1, ha0, hb1⟩ := h1
  rcases Nat.lt_trichotomy i j with hlt | heq | hgt
  · have hh := hagr2 i hlt
    rw [hb1, ha0] at hh
    exact absurd hh (by simp)
  · subst heq
    rw [ha0] at ha1
    exact Bool.false_ne_true ha1
  · have hh := hagr1 j hgt
    rw [ha1, hb0] at hh
    exact absurd hh (by simp)

theorem romLt_trans {a b c : Nat} (h1 : romLt a b) (h2 : romLt b c) : romLt a c := by
  obtain ⟨i, hi64, hagr1, ha0, hb1⟩ := h1
  obtain ⟨j, hj64, hagr2, hb0, hc1⟩ := h2
  rcases Nat.lt_trichotomy i j with hlt | heq | hgt
  · refine ⟨i, hi64, ?_, ha0, ?_⟩
    · intro m hm
      rw [hagr1 m hm, hagr2 m (by omega)]
    · rw [← hagr2 i hlt]
      exact hb1
  · subst heq
    rw [hb1] at hb0
    exact absurd hb0 (by simp)
  · refine ⟨j, hj64, ?_, ?_, hc1⟩
    · intro m hm
      rw [hagr1 m (by omega), hagr2 m hm]
    · rw [hagr1 j hgt]
      exact hb0

theorem romLt_trichotomy (a b : Nat) (ha : a < 2 ^ 64) (hb : b < 2 ^ 64)
    (hne : a ≠ b) : romLt a b ∨ romLt b a := by
  have hex : ∃ j, ¬ (a.testBit j = b.testBit j) := by
    by_contra h
    push_neg at h
    exact hne (Nat.eq_of_testBit_eq h)
  have hj := Nat.find_spec hex
  have hmin : ∀ m, m < Nat.find hex → a.testBit m = b.testBit m := by
    intro m hm
    have := Nat.find_min hex hm
    simpa using this
  have hj64 : Nat.find hex < 64 := by
    by_contra hge
    push_neg at hge
    have h1 : a.testBit (Nat.find hex) = false :=
      Nat.testBit_lt_two_pow (lt_of_lt_of_le ha (Nat.pow_le_pow_right (by norm_num) hge))
    have h2 : b.testBit (Nat.find hex) = false :=
      Nat.testBit_lt_two_pow (lt_of_lt_of_le hb (Nat.pow_le_pow_right (by norm_num) hge))
    exact hj (h1.trans h2.symm)
  cases hA : a.testBit (Nat.find hex) with
  | false =>
    left
    refine ⟨Nat.find hex, hj64, hmin, hA, ?_⟩
    cases hB : b.testBit (Nat.find hex) with
    | false => exact absurd (hA.trans hB.symm) hj
    | true => rfl
  | true =>
    right
    refine ⟨Nat.find hex, hj64, fun m hm => (hmin m hm).symm, ?_, hA⟩
    cases hB : b.testBit (Nat.find hex) with
    | false => rfl
    | true => exact absurd (hA.trans hB.symm) hj

/-- One step of the 64-bit pass loop preserves the pass invariant, and the
abort branch (both reads 1) is never taken. -/
theorem passInv_step (devs : List Nat) (D r i : Nat) (active : List Nat)
    (acc : List Bool) (lz : Nat)
    (hr : D ≠ 0 → r ∈ devs ∧ r.testBit (D - 1) = false)
    (inv : PassInv devs D r i active acc lz) :
    (busReadBit active i && busReadCmpBit active i) = false ∧
    PassInv devs D r (i + 1)
      (active.filter (fun d => d.testBit i == passDir D r active i))
      (acc ++ [passDir D r active i]) (passLz D r active i lz) := by
  have hBitT : busReadBit active i = true ↔ ∀ d ∈ active, d.testBit i = true := by
    simp [busReadBit]
  have hCmpT : busReadCmpBit active i = true ↔ ∀ d ∈ active, d.testBit i = false := by
    simp [busReadCmpBit]
  have hBitF : busReadBit active i = false ↔ ∃ d ∈ active, d.testBit i = false := by
    rw [← Bool.not_eq_true, hBitT]
    push_neg
    simp [Bool.not_eq_true]
  have hCmpF : busReadCmpBit active i = false ↔ ∃ d ∈ active, d.testBit i = true := by
    rw [← Bool.not_eq_true, hCmpT]
    push_neg
    simp [Bool.not_eq_false]
  obtain ⟨s₀, hs0t, hs0m⟩ := inv.targetMatch
  have hs0a : s₀ ∈ active := (inv.activeMem s₀).mpr ⟨hs0t.1, hs0m⟩
  have habort : (busReadBit active i && busReadCmpBit active i) = false := by
    cases hb : busReadBit active i
    · simp
    · cases hc : busReadCmpBit active i
      · simp
      · have h1 := hBitT.mp hb s₀ hs0a
        have h2 := hCmpT.mp hc s₀ hs0a
        rw [h1] at h2
        exact absurd h2 (by simp)
  set dir := passDir D r active i with hdirdef
  have hdisc_iff : ((!busReadBit active i && !busReadCmpBit active i) = true) ↔
      (busReadBit active i = false ∧ busReadCmpBit active i = false) := by
    simp
  have hdir_disc : busReadBit active i = false → busReadCmpBit active i = false →
      dir = (if i + 1 < D then r.testBit i else decide (i + 1 = D)) := by
    intro h1 h2
    rw [hdirdef]
    unfold passDir
    rw [if_pos (hdisc_iff.mpr ⟨h1, h2⟩)]
  have hdir_nodisc :
      ¬(busReadBit active i = false ∧ busReadCmpBit active i = false) →
      dir = busReadBit active i := by
    intro hnd
    rw [hdirdef]
    unfold passDir
    rw [if_neg (fun hc => hnd (hdisc_iff.mp hc))]
  have huniform : ¬(busReadBit active i = false ∧ busReadCmpBit active i = false) →
      ∀ d ∈ active, d.testBit i = busReadBit active i := by
    intro hnd d hd
    cases hb : busReadBit active i
    · have hc : busReadCmpBit active i = true := by
        cases hc2 : busReadCmpBit active i
        · exact absurd ⟨hb, hc2⟩ hnd
        · rfl
      exact hCmpT.mp hc d hd
    · exact hBitT.mp hb d hd
  have hGetI : (acc ++ [dir]).getD i false = dir := by
    rw [← inv.accLen]
    exact getD_append_len acc dir
  have hGetLt : ∀ m, m < i → (acc ++ [dir]).getD m false = acc.getD m false := by
    intro m hm
    exact List.getD_append acc [dir] false m (by rw [inv.accLen]; exact hm)
  have hacclen' : (acc ++ [dir]).length = i + 1 := by
    simp [inv.accLen]
  have hactive' : ∀ d, d ∈ active.filter (fun d => d.testBit i == dir) ↔
      (d ∈ devs ∧ matchesAcc d (acc ++ [dir])) := by
    intro d
    rw [List.mem_filter, inv.activeMem d, matchesAcc_append, inv.accLen]
    constructor
    · rintro ⟨⟨h1, h2⟩, h3⟩
      exact ⟨h1, h2, by simpa using h3⟩
    · rintro ⟨h1, h2, h3⟩
      exact ⟨⟨h1, h2⟩, by simp [h3]⟩
  have hlzq : ((busReadBit active i = false ∧ busReadCmpBit active i = false) ∧
      dir = false) ↔ lzQ devs (acc ++ [dir]) i := by
    constructor
    · rintro ⟨⟨hb, hc⟩, hdf⟩
      refine ⟨by rw [hGetI]; exact hdf, ?_⟩
      obtain ⟨d1, hd1a, hd1b⟩ := hCmpF.mp hc
      obtain ⟨hd1dev, hd1m⟩ := (inv.activeMem d1).mp hd1a
      refine ⟨d1, hd1dev, ?_, hd1b⟩
      intro m hm
      rw [hGetLt m hm]
      exact hd1m m (by rw [inv.accLen]; exact hm)
    · rintro ⟨h0, s1, hs1dev, hs1m, hs1b⟩
      have hdf : dir = false := by rw [hGetI] at h0; exact h0
      have hs1m2 : matchesAcc s1 acc := by
        intro m hm
        rw [inv.accLen] at hm
        rw [← hGetLt m hm]
        exact hs1m m hm
      have hs1a : s1 ∈ active := (inv.activeMem s1).mpr ⟨hs1dev, hs1m2⟩
      have hcF : busReadCmpBit active i = false := by
        cases hc : busReadCmpBit active i
        · rfl
        · have hh := hCmpT.mp hc s1 hs1a
          rw [hs1b] at hh
          exact absurd hh (by simp)
      have hbF : busReadBit active i = false := by
        cases hb : busReadBit active i
        · rfl
        · have hh := hdir_nodisc (by rintro ⟨h1, _⟩; rw [hb] at h1; exact absurd h1 (by simp))
          rw [hb] at hh
          rw [hh] at hdf
          exact absurd hdf (by simp)
      exact ⟨⟨hbF, hcF⟩, hdf⟩
  have hlz' : passLz D r active i lz =
      (if ((busReadBit active i = false ∧ busReadCmpBit active i = false) ∧
        dir = false) then i + 1 else lz) := by
    by_cases hQ : ((busReadBit active i = false ∧ busReadCmpBit active i = false) ∧
        dir = false)
    · rw [if_pos hQ]
      unfold passLz
      rw [← hdirdef]
      rw [if_pos (by simp [hQ.1.1, hQ.1.2, hQ.2])]
    · rw [if_neg hQ]
      unfold passLz
      rw [← hdirdef]
      rw [if_neg ?hcond]
      case hcond =>
        intro hc
        simp only [Bool.and_eq_true, Bool.not_eq_true'] at hc
        exact hQ ⟨⟨hc.1.1, hc.1.2⟩, hc.2⟩
  have hlzspec' : (passLz D r active i lz = 0 ∧
      ∀ k, k < i + 1 → ¬ lzQ devs (acc ++ [dir]) k) ∨
      (∃ k, k < i + 1 ∧ passLz D r active i lz = k + 1 ∧
        lzQ devs (acc ++ [dir]) k ∧
        ∀ m, k < m → m < i + 1 → ¬ lzQ devs (acc ++ [dir]) m) := by
    by_cases hQ : ((busReadBit active i = false ∧ busReadCmpBit active i = false) ∧
        dir = false)
    · right
      refine ⟨i, by omega, by rw [hlz', if_pos hQ], hlzq.mp hQ, ?_⟩
      intro m hm1 hm2
      exact absurd (by omega : (m < m)) (by omega)
    · have hne : ¬ lzQ devs (acc ++ [dir]) i := fun hc => hQ (hlzq.mpr hc)
      have hlzeq : passLz D r active i lz = lz := by rw [hlz', if_neg hQ]
      rcases inv.lzSpec with ⟨h0, hall⟩ | ⟨k, hk, hkeq, hkQ, hkmax⟩
      · left
        refine ⟨by rw [hlzeq]; exact h0, ?_⟩
        intro k hk
        rcases Nat.lt_or_ge k i with hki | hki
        · rw [lzQ_append devs acc dir k (by rw [inv.accLen]; exact hki)]
          exact hall k hki
        · have hkeq2 : k = i := by omega
          subst hkeq2
          exact hne
      · right
        refine ⟨k, by omega, by rw [hlzeq]; exact hkeq, ?_, ?_⟩
        · rw [lzQ_append devs acc dir k (by rw [inv.accLen]; exact hk)]
          exact hkQ
        · intro m hm1 hm2
          rcases Nat.lt_or_ge m i with hmi | hmi
          · rw [lzQ_append devs acc dir m (by rw [inv.accLen]; exact hmi)]
            exact hkmax m hm1 hmi
          · have hmeq : m = i := by omega
            subst hmeq
            exact hne
  refine ⟨habort, ?_⟩
  rcases Nat.lt_trichotomy (i + 1) D with hph | hph | hph
  · -- replay phase: i + 1 < lastDiscrepancy
    have hDne : D ≠ 0 := by omega
    obtain ⟨hrdev, hrbit⟩ := hr hDne
    have hrm : matchesAcc r acc := by
      intro j hj
      rw [inv.accLen] at hj
      exact (inv.replay j hj (by omega)).symm
    have hra : r ∈ active := (inv.activeMem r).mpr ⟨hrdev, hrm⟩
    have hdirA : dir = r.testBit i := by
      by_cases hdc : busReadBit active i = false ∧ busReadCmpBit active i = false
      · rw [hdir_disc hdc.1 hdc.2, if_pos hph]
      · rw [hdir_nodisc hdc]
        exact (huniform hdc r hra).symm
    have htbit : ∀ s, inTarget devs D r s → s.testBit i = dir := by
      intro s hs
      rcases hs.2 with h0 | ⟨hagr, _⟩
      · exact absurd h0 (by omega)
      · rw [hdirA]
        exact hagr i (by omega)
    exact {
      accLen := hacclen'
      activeMem := hactive'
      replay := by
        intro j hj hjD
        rcases Nat.lt_or_ge j i with hji | hji
        · rw [hGetLt j hji]
          exact inv.replay j hji hjD
        · have hje : j = i := by omega
          subst hje
          rw [hGetI, hdirA]
      branchBit := by
        intro j hj hjD
        rcases Nat.lt_or_ge j i with hji | hji
        · rw [hGetLt j hji]
          exact inv.branchBit j hji hjD
        · have hje : j = i := by omega
          subst hje
          exact absurd hjD (by omega)
      targetMatch := by
        refine ⟨s₀, hs0t, ?_⟩
        rw [matchesAcc_append, inv.accLen]
        exact ⟨hs0m, htbit s₀ hs0t⟩
      targetGe := by
        intro s hs
        rcases inv.targetGe s hs with hm | ⟨k, hk, h1, h2, h3⟩
        · left
          rw [matchesAcc_append, inv.accLen]
          exact ⟨hm, htbit s hs⟩
        · right
          exact ⟨k, by omega,
            fun m hm2 => by rw [hGetLt m (by omega)]; exact h1 m hm2, h2,
            by rw [hGetLt k hk]; exact h3⟩
      postTarget := fun hD2 => absurd hD2 (by omega)
      lzSpec := hlzspec'
    }
  · -- branch phase: i + 1 = lastDiscrepancy, the 1 branch is taken
    have hDne : D ≠ 0 := by omega
    obtain ⟨hrdev, hrbit⟩ := hr hDne
    have hD1 : D - 1 = i := by omega
    have hrm : matchesAcc r acc := by
      intro j hj
      rw [inv.accLen] at hj
      exact (inv.replay j hj (by omega)).symm
    have hra : r ∈ active := (inv.activeMem r).mpr ⟨hrdev, hrm⟩
    have hrbit_i : r.testBit i = false := by rw [← hD1]; exact hrbit
    have hs0bit : s₀.testBit i = true := by
      rcases hs0t.2 with h0 | ⟨_, hb⟩
      · exact absurd h0 hDne
      · rw [← hD1]
        exact hb
    have hdisc : busReadBit active i = false ∧ busReadCmpBit active i = false := by
      constructor
      · cases hb : busReadBit active i
        · rfl
        · have hh := hBitT.mp hb r hra
          rw [hrbit_i] at hh
          exact absurd hh (by simp)
      · cases hc : busReadCmpBit active i
        · rfl
        · have hh := hCmpT.mp hc s₀ hs0a
          rw [hs0bit] at hh
          exact absurd hh (by simp)
    have hdirB : dir = true := by
      rw [hdir_disc hdisc.1 hdisc.2, if_neg (by omega)]
      simp [hph]
    have htbit : ∀ s, inTarget devs D r s → s.testBit i = dir := by
      intro s hs
      rcases hs.2 with h0 | ⟨_, hb⟩
      · exact absurd h0 hDne
      · rw [hdirB, ← hD1]
        exact hb
    exact {
      accLen := hacclen'
      activeMem := hactive'
      replay := by
        intro j hj hjD
        rcases Nat.lt_or_ge j i with hji | hji
        · rw [hGetLt j hji]
          exact inv.replay j hji hjD
        · have hje : j = i := by omega
          subst hje
          exact absurd hjD (by omega)
      branchBit := by
        intro j hj hjD
        rcases Nat.lt_or_ge j i with hji | hji
        · rw [hGetLt j hji]
          exact inv.branchBit j hji hjD
        · have hje : j = i := by omega
          subst hje
          rw [hGetI]
          exact hdirB
      targetMatch := by
        refine ⟨s₀, hs0t, ?_⟩
        rw [matchesAcc_append, inv.accLen]
        exact ⟨hs0m, htbit s₀ hs0t⟩
      targetGe := by
        intro s hs
        rcases inv.targetGe s hs with hm | ⟨k, hk, h1, h2, h3⟩
        · left
          rw [matchesAcc_append, inv.accLen]
          exact ⟨hm, htbit s hs⟩
        · right
          exact ⟨k, by omega,
            fun m hm2 => by rw [hGetLt m (by omega)]; exact h1 m hm2, h2,
            by rw [hGetLt k hk]; exact h3⟩
      postTarget := by
        intro _ d hddev hdm
        rw [matchesAcc_append, inv.accLen] at hdm
        refine ⟨hddev, Or.inr ⟨?_, ?_⟩⟩
        · intro m hm
          rw [hD1] at hm
          rw [hdm.1 m (by rw [inv.accLen]; exact hm)]
          exact inv.replay m hm (by omega)
        · rw [hD1, hdm.2]
          exact hdirB
      lzSpec := hlzspec'
    }
  · -- descent phase: past the branch point, discrepancies resolve to 0
    have hDle : D ≤ i := by omega
    have hreplay' : ∀ j, j < i + 1 → j + 1 < D → (acc ++ [dir]).getD j false = r.testBit j := by
      intro j hj hjD
      rcases Nat.lt_or_ge j i with hji | hji
      · rw [hGetLt j hji]
        exact inv.replay j hji hjD
      · have hje : j = i := by omega
        subst hje
        exact absurd hjD (by omega)
    have hbranch' : ∀ j, j < i + 1 → j + 1 = D → (acc ++ [dir]).getD j false = true := by
      intro j hj hjD
      rcases Nat.lt_or_ge j i with hji | hji
      · rw [hGetLt j hji]
        exact inv.branchBit j hji hjD
      · have hje : j = i := by omega
        subst hje
        exact absurd hjD (by omega)
    have hpost' : D ≤ i + 1 → ∀ d ∈ devs, matchesAcc d (acc ++ [dir]) →
        inTarget devs D r d := by
      intro _ d hddev hdm
      rw [matchesAcc_append] at hdm
      exact inv.postTarget hDle d hddev hdm.1
    by_cases hdc : busReadBit active i = false ∧ busReadCmpBit active i = false
    · have hdirC : dir = false := by
        rw [hdir_disc hdc.1 hdc.2, if_neg (by omega)]
        simp
        omega
      obtain ⟨d0, hd0a, hd0b⟩ := hBitF.mp hdc.1
      obtain ⟨hd0dev, hd0m⟩ := (inv.activeMem d0).mp hd0a
      have hd0t : inTarget devs D r d0 := inv.postTarget hDle d0 hd0dev hd0m
      exact {
        accLen := hacclen'
        activeMem := hactive'
        replay := hreplay'
        branchBit := hbranch'
        targetMatch := by
          refine ⟨d0, hd0t, ?_⟩
          rw [matchesAcc_append, inv.accLen]
          exact ⟨hd0m, by rw [hd0b, hdirC]⟩
        targetGe := by
          intro s hs
          rcases inv.targetGe s hs with hm | ⟨k, hk, h1, h2, h3⟩
          · cases hsb : s.testBit i
            · left
              rw [matchesAcc_append, inv.accLen]
              exact ⟨hm, by rw [hsb, hdirC]⟩
            · right
              refine ⟨i, by omega, ?_, hsb, by rw [hGetI]; exact hdirC⟩
              intro m hm2
              rw [hGetLt m hm2]
              exact hm m (by rw [inv.accLen]; exact hm2)
          · right
            exact ⟨k, by omega,
              fun m hm2 => by rw [hGetLt m (by omega)]; exact h1 m hm2, h2,
              by rw [hGetLt k hk]; exact h3⟩
        postTarget := hpost'
        lzSpec := hlzspec'
      }
    · have hdirC2 : dir = busReadBit active i := hdir_nodisc hdc
      have htbit : ∀ s, s ∈ active → s.testBit i = dir := by
        intro s hsa
        rw [hdirC2]
        exact huniform hdc s hsa
      exact {
        accLen := hacclen'
        activeMem := hactive'
        replay := hreplay'
        branchBit := hbranch'
        targetMatch := by
          refine ⟨s₀, hs0t, ?_⟩
          rw [matchesAcc_append, inv.accLen]
          exact ⟨hs0m, htbit s₀ hs0a⟩
        targetGe := by
          intro s hs
          rcases inv.targetGe s hs with hm | ⟨k, hk, h1, h2, h3⟩
          · left
            rw [matchesAcc_append, inv.accLen]
            refine ⟨hm, ?_⟩
            exact htbit s ((inv.activeMem s).mpr ⟨hs.1, hm⟩)
          · right
            exact ⟨k, by omega,
              fun m hm2 => by rw [hGetLt m (by omega)]; exact h1 m hm2, h2,
              by rw [hGetLt k hk]; exact h3⟩
        postTarget := hpost'
        lzSpec := hlzspec'
      }

/-- Running the pass loop from any invariant state completes all 64 bits
and lands in an invariant state at bit 64. -/
theorem passLoop_run (devs : List Nat) (D r : Nat)
    (hr : D ≠ 0 → r ∈ devs ∧ r.testBit (D - 1) = false) :
    ∀ fuel i active acc lz, i + fuel = 64 →
      PassInv devs D r i active acc lz →
      ∃ bits lz2 active2, passLoop D r fuel i active acc lz = (true, bits, lz2) ∧
        PassInv devs D r 64 active2 bits lz2 := by
  intro fuel
  induction fuel with
  | zero =>
    intro i active acc lz hif inv
    have hi : i = 64 := by omega
    subst hi
    exact ⟨acc, lz, active, rfl, inv⟩
  | succ n ih =>
    intro i active acc lz hif inv
    obtain ⟨habort, inv2⟩ := passInv_step devs D r i active acc lz hr inv
    have hstep : passLoop D r (n + 1) i active acc lz =
        passLoop D r n (i + 1)
          (active.filter (fun d => d.testBit i == passDir D r active i))
          (acc ++ [passDir D r active i]) (passLz D r active i lz) := by
      rw [passLoop, habort]
      simp
    rw [hstep]
    exact ih (i + 1) _ _ _ (by omega) inv2

/-- The initial state of a pass satisfies the invariant, provided the
target set is nonempty. -/
theorem passInv_init (devs : List Nat) (D r : Nat)
    (htarget : ∃ s, inTarget devs D r s) :
    PassInv devs D r 0 devs [] 0 := by
  obtain ⟨s, hs⟩ := htarget
  exact {
    accLen := rfl
    activeMem := fun d =>
      ⟨fun h => ⟨h, fun j hj => absurd hj (by simp)⟩, fun h => h.1⟩
    replay := fun j hj _ => absurd hj (by omega)
    branchBit := fun j hj _ => absurd hj (by omega)
    targetMatch := ⟨s, hs, fun j hj => absurd hj (by simp)⟩
    targetGe := fun s2 _ => Or.inl (fun j hj => absurd hj (by simp))
    postTarget := by
      intro hD0 d hd _
      have : D = 0 := by omega
      exact ⟨hd, Or.inl this⟩
    lzSpec := Or.inl ⟨rfl, fun k hk => absurd hk (by omega)⟩
  }

/-- Characterization of one completed pass: it returns the minimal element
of the target set (in enumeration order) and `lastZero` is that element's
branch position. -/
theorem pass_characterization (devs : List Nat) (D r : Nat)
    (hlt : ∀ d ∈ devs, d < 2 ^ 64)
    (hr : D ≠ 0 → r ∈ devs ∧ r.testBit (D - 1) = false)
    (htarget : ∃ s, inTarget devs D r s) :
    ∃ bits lz2, passLoop D r 64 0 devs [] 0 = (true, bits, lz2) ∧
      bits.length = 64 ∧
      inTarget devs D r (bitsToNat bits) ∧
      (∀ s, inTarget devs D r s → ¬ romLt s (bitsToNat bits)) ∧
      lz2 = branchPos devs (bitsToNat bits) := by
  obtain ⟨bits, lz2, active2, hrun, inv64⟩ :=
    passLoop_run devs D r hr 64 0 devs [] 0 rfl (passInv_init devs D r htarget)
  have hlen : bits.length = 64 := inv64.accLen
  have hbit : ∀ j, (bitsToNat bits).testBit j = bits.getD j false :=
    bitsToNat_testBit bits
  have hfull : ∀ x, x ∈ devs → matchesAcc x bits → x = bitsToNat bits := by
    intro x hxdev hxm
    apply Nat.eq_of_testBit_eq
    intro j
    rcases Nat.lt_or_ge j 64 with hj | hj
    · rw [hbit j]
      exact hxm j (by rw [hlen]; exact hj)
    · have h1 : x.testBit j = false :=
        Nat.testBit_lt_two_pow
          (lt_of_lt_of_le (hlt x hxdev) (Nat.pow_le_pow_right (by norm_num) hj))
      have h2 : (bitsToNat bits).testBit j = false :=
        Nat.testBit_lt_two_pow
          (lt_of_lt_of_le (by rw [← hlen]; exact bitsToNat_lt bits)
            (Nat.pow_le_pow_right (by norm_num) hj))
      rw [h1, h2]
  obtain ⟨s, hst, hsm⟩ := inv64.targetMatch
  have hseq : s = bitsToNat bits := hfull s hst.1 hsm
  refine ⟨bits, lz2, hrun, hlen, by rw [← hseq]; exact hst, ?_, ?_⟩
  · intro s2 hs2 hcontra
    rcases inv64.targetGe s2 hs2 with hm | ⟨k, hk, hkagr, hkbit, hkacc⟩
    · have : s2 = bitsToNat bits := hfull s2 hs2.1 hm
      rw [this] at hcontra
      exact romLt_irrefl _ hcontra
    · obtain ⟨j, hj64, hagr, hs2j, hrj⟩ := hcontra
      rcases Nat.lt_trichotomy j k with hlt2 | heq | hgt
      · have h1 := hkagr j hlt2
        rw [← hbit j] at h1
        rw [hs2j, hrj] at h1
        exact absurd h1 (by simp)
      · subst heq
        rw [hs2j] at hkbit
        exact absurd hkbit (by simp)
      · have h1 := hagr k hgt
        rw [hkbit] at h1
        rw [← hbit k] at hkacc
        rw [← h1] at hkacc
        exact absurd hkacc (by simp)
  · have htrans : ∀ k, k < 64 →
        (lzQ devs bits k ↔ branchProp devs (bitsToNat bits) (k + 1)) := by
      intro k hk
      unfold lzQ branchProp
      simp only [Nat.add_sub_cancel]
      constructor
      · rintro ⟨h0, s1, hs1d, hs1m, hs1b⟩
        exact ⟨by omega, by omega, by rw [hbit]; exact h0, s1, hs1d,
          fun m hm => by rw [hbit]; exact hs1m m hm, hs1b⟩
      · rintro ⟨_, _, h0, s1, hs1d, hagr, hs1b⟩
        exact ⟨by rw [← hbit k]; exact h0, s1, hs1d,
          fun m hm => by rw [← hbit m]; exact hagr m hm, hs1b⟩
    refine ((Nat.findGreatest_eq_iff).mpr ⟨?_, ?_, ?_⟩).symm
    · rcases inv64.lzSpec with ⟨h0, _⟩ | ⟨k, hk, hkeq, _, _⟩
      · omega
      · omega
    · intro hne
      rcases inv64.lzSpec with ⟨h0, _⟩ | ⟨k, hk, hkeq, hkQ, _⟩
      · exact absurd h0 hne
      · have hkk : lz2 - 1 = k := by omega
        rw [show lz2 = k + 1 from hkeq]
        exact (htrans k hk).mp hkQ
    · intro n hgt hle hbp
      have hn1 : n - 1 < 64 := by omega
      have hq : lzQ devs bits (n - 1) := by
        rw [htrans (n - 1) hn1]
        rw [show n - 1 + 1 = n from by omega]
        exact hbp
      rcases inv64.lzSpec with ⟨h0, hall⟩ | ⟨k, hk, hkeq, hkQ, hkmax⟩
      · exact hall (n - 1) hn1 hq
      · exact hkmax (n - 1) (by omega) (by omega) hq

/-- One iteration of the pass-repetition loop: the pass completes, the
merged buffer is the next device in enumeration order, it passes the
CRC/family gate, the extended result list is exactly the set of devices up
to it, a zero `lastZero` means everything has been found, and the set of
undiscovered devices strictly shrinks. -/
theorem searchStep (devs : List Nat)
    (hdev : ∀ d ∈ devs, d < 2 ^ 64 ∧ romAccepted d = true)
    (o : Option Nat) (D rom : Nat) (results : List Nat)
    (hinv : SearchInv devs o D rom results) (hne : devs ≠ []) :
    ∃ bits lz2, passLoop D rom 64 0 devs [] 0 = (true, bits, lz2) ∧
      mergeRom bits rom = bitsToNat bits ∧
      romAccepted (bitsToNat bits) = true ∧
      bitsToNat bits ∈ devs ∧
      lz2 = branchPos devs (bitsToNat bits) ∧
      (bitsToNat bits :: results).Nodup ∧
      (∀ x, x ∈ (bitsToNat bits :: results) ↔
        (x ∈ devs ∧ (x = bitsToNat bits ∨ romLt x (bitsToNat bits)))) ∧
      (lz2 = 0 → ∀ x ∈ devs, x ∈ (bitsToNat bits :: results)) ∧
      remainingSet devs (some (bitsToNat bits)) ⊂ remainingSet devs o := by
  have hlt : ∀ d ∈ devs, d < 2 ^ 64 := fun d hd => (hdev d hd).1
  cases o with
  | none =>
    obtain ⟨hD0, hrom0, hres⟩ := hinv
    subst hD0
    subst hrom0
    subst hres
    have htarget : ∃ s, inTarget devs 0 0 s := by
      obtain ⟨s, hs⟩ := List.exists_mem_of_ne_nil devs hne
      exact ⟨s, hs, Or.inl rfl⟩
    obtain ⟨bits, lz2, hpass, hlen, htr, hmin, hlz⟩ :=
      pass_characterization devs 0 0 hlt (fun h => absurd rfl h) htarget
    have hr'dev : bitsToNat bits ∈ devs := htr.1
    have hr'lt : bitsToNat bits < 2 ^ 64 := hlt _ hr'dev
    refine ⟨bits, lz2, hpass,
      mergeRom_eq bits 0 (by positivity), (hdev _ hr'dev).2, hr'dev, hlz, by simp, ?_, ?_, ?_⟩
    · intro x
      constructor
      · intro hx
        rcases List.mem_cons.mp hx with hx1 | hx2
        · exact ⟨by rw [hx1]; exact hr'dev, Or.inl hx1⟩
        · exact absurd hx2 (List.not_mem_nil x)
      · rintro ⟨hxdev, hx1 | hx2⟩
        · exact List.mem_cons.mpr (Or.inl hx1)
        · exact absurd hx2 (hmin x ⟨hxdev, Or.inl rfl⟩)
    · intro h0 x hxdev
      by_cases hxe : x = bitsToNat bits
      · exact List.mem_cons.mpr (Or.inl hxe)
      · rcases romLt_trichotomy x (bitsToNat bits) (hlt x hxdev) hr'lt hxe
          with hxr | hrx
        · exact absurd hxr (hmin x ⟨hxdev, Or.inl rfl⟩)
        · exfalso
          obtain ⟨j, hj64, hagr, hr'j, hxj⟩ := hrx
          have hbp : branchProp devs (bitsToNat bits) (j + 1) :=
            ⟨by omega, by omega, by simpa using hr'j, x, hxdev,
              fun m hm => (hagr m hm).symm, hxj⟩
          have hle := Nat.le_findGreatest (by omega : j + 1 ≤ 64) hbp
          have hbp0 : branchPos devs (bitsToNat bits) = 0 := by rw [← hlz]; exact h0
          unfold branchPos at hbp0
          omega
    · exact (Finset.ssubset_iff_of_subset (Finset.filter_subset _ _)).mpr
        ⟨bitsToNat bits, List.mem_toFinset.mpr hr'dev,
          fun hc => romLt_irrefl _ ((Finset.mem_filter.mp hc).2)⟩
  | some r0 =>
    obtain ⟨hromr0, hr0dev, hDbp, hDne, hndres, hchar⟩ := hinv
    subst hromr0
    have hDeq : Nat.findGreatest (branchProp devs rom) 64 = D := by
      rw [hDbp]; rfl
    obtain ⟨hD64, hDP', hDmax⟩ := Nat.findGreatest_eq_iff.mp hDeq
    have hDP : branchProp devs rom D := hDP' hDne
    obtain ⟨hD0lt, _, hr0bit, w, hwdev, hwagr, hwbit⟩ := hDP
    obtain ⟨bits, lz2, hpass, hlen, htr, hmin, hlz⟩ :=
      pass_characterization devs D rom hlt (fun _ => ⟨hr0dev, hr0bit⟩)
        ⟨w, hwdev, Or.inr ⟨hwagr, hwbit⟩⟩
    have hr'dev : bitsToNat bits ∈ devs := htr.1
    have hr'lt : bitsToNat bits < 2 ^ 64 := hlt _ hr'dev
    obtain ⟨hagr', hbit'⟩ : agreesBelow (bitsToNat bits) rom (D - 1) ∧
        (bitsToNat bits).testBit (D - 1) = true := by
      rcases htr.2 with h0 | hh
      · exact absurd h0 hDne
      · exact hh
    have f1 : romLt rom (bitsToNat bits) :=
      ⟨D - 1, by omega, fun m hm => (hagr' m hm).symm, hr0bit, hbit'⟩
    have f2 : ∀ x ∈ devs, romLt x (bitsToNat bits) → (x = rom ∨ romLt x rom) := by
      intro x hxdev hxr'
      by_cases hxe : x = rom
      · exact Or.inl hxe
      rcases romLt_trichotomy x rom (hlt x hxdev) (hlt rom hr0dev) hxe with h1 | h2
      · exact Or.inr h1
      · exfalso
        obtain ⟨j, hj64, hagrj, hr0j, hxj⟩ := h2
        have hbp : branchProp devs rom (j + 1) := ⟨by omega, by omega,
          by simpa using hr0j, x, hxdev, fun m hm => (hagrj m hm).symm, hxj⟩
        have hjD : j + 1 ≤ D := by
          by_contra hgt
          push_neg at hgt
          exact hDmax hgt (by omega) hbp
        rcases Nat.lt_or_ge (j + 1) D with hlt2 | hge2
        · have hr'x : romLt (bitsToNat bits) x := by
            refine ⟨j, hj64, ?_, ?_, hxj⟩
            · intro m hm
              rw [hagr' m (by omega)]
              exact hagrj m hm
            · rw [hagr' j (by omega)]
              exact hr0j
          exact romLt_asymm hxr' hr'x
        · have hjeq : j = D - 1 := by omega
          have hxt : inTarget devs D rom x := ⟨hxdev, Or.inr
            ⟨by rw [← hjeq]; exact fun m hm => (hagrj m hm).symm,
              by rw [← hjeq]; exact hxj⟩⟩
          exact hmin x hxt hxr'
    have hchar' : ∀ x, x ∈ (bitsToNat bits :: results) ↔
        (x ∈ devs ∧ (x = bitsToNat bits ∨ romLt x (bitsToNat bits))) := by
      intro x
      constructor
      · intro hx
        rcases List.mem_cons.mp hx with hx1 | hx2
        · exact ⟨by rw [hx1]; exact hr'dev, Or.inl hx1⟩
        · obtain ⟨hxdev, hx3⟩ := (hchar x).mp hx2
          refine ⟨hxdev, Or.inr ?_⟩
          rcases hx3 with hx4 | hx5
          · rw [hx4]; exact f1
          · exact romLt_trans hx5 f1
      · rintro ⟨hxdev, hx1 | hx2⟩
        · exact List.mem_cons.mpr (Or.inl hx1)
        · refine List.mem_cons.mpr (Or.inr ((hchar x).mpr ⟨hxdev, ?_⟩))
          exact f2 x hxdev hx2
    refine ⟨bits, lz2, hpass,
      mergeRom_eq bits rom (by rw [hlen]; exact hlt rom hr0dev),
      (hdev _ hr'dev).2, hr'dev, hlz, ?_, hchar', ?_, ?_⟩
    · refine List.nodup_cons.mpr ⟨?_, hndres⟩
      intro hc
      obtain ⟨_, hh⟩ := (hchar _).mp hc
      rcases hh with hh1 | hh2
      · rw [hh1] at f1
        exact romLt_irrefl rom f1
      · exact romLt_asymm f1 hh2
    · intro h0 x hxdev
      by_cases hxe : x = bitsToNat bits
      · exact List.mem_cons.mpr (Or.inl hxe)
      · rcases romLt_trichotomy x (bitsToNat bits) (hlt x hxdev) hr'lt hxe
          with hxr | hrx
        · exact (hchar' x).mpr ⟨hxdev, Or.inr hxr⟩
        · exfalso
          obtain ⟨j, hj64, hagr, hr'j, hxj⟩ := hrx
          have hbp : branchProp devs (bitsToNat bits) (j + 1) :=
            ⟨by omega, by omega, by simpa using hr'j, x, hxdev,
              fun m hm => (hagr m hm).symm, hxj⟩
          have hle := Nat.le_findGreatest (by omega : j + 1 ≤ 64) hbp
          have hbp0 : branchPos devs (bitsToNat bits) = 0 := by rw [← hlz]; exact h0
          unfold branchPos at hbp0
          omega
    · refine (Finset.ssubset_iff_of_subset ?_).mpr
        ⟨bitsToNat bits, ?_, fun hc => romLt_irrefl _ ((Finset.mem_filter.mp hc).2)⟩
      · intro x hx
        obtain ⟨hx1, hx2⟩ := Finset.mem_filter.mp hx
        exact Finset.mem_filter.mpr ⟨hx1, romLt_trans f1 hx2⟩
      · exact Finset.mem_filter.mpr ⟨List.mem_toFinset.mpr hr'dev, f1⟩

/-- Running the pass-repetition loop from an invariant state with enough
fuel terminates with exactly the set of devices. -/
theorem searchLoop_run (devs : List Nat)
    (hdev : ∀ d ∈ devs, d < 2 ^ 64 ∧ romAccepted d = true) :
    ∀ fuel (o : Option Nat) D rom results, SearchInv devs o D rom results →
      (remainingSet devs o).card < fuel →
      ∃ out, searchLoop devs fuel D rom results = some out ∧ out.Nodup ∧
        (∀ x, x ∈ out ↔ x ∈ devs) := by
  intro fuel
  induction fuel with
  | zero =>
    intro o D rom results _ hcard
    omega
  | succ n ih =>
    intro o D rom results hinv hcard
    by_cases hE : devs.isEmpty = true
    · have hnil : devs = [] := List.isEmpty_iff.mp hE
      have hres : results = [] := by
        cases o with
        | none => exact hinv.2.2
        | some rr =>
          exact absurd hinv.2.1 (by rw [hnil]; exact List.not_mem_nil rr)
      refine ⟨[], ?_, List.nodup_nil, ?_⟩
      · show searchLoop devs (n + 1) D rom results = some []
        rw [searchLoop, if_pos hE, hres]
        rfl
      · intro x
        rw [hnil]
    · have hne : devs ≠ [] := fun h => by rw [h] at hE; exact hE rfl
      obtain ⟨bits, lz2, hpass, hmerge, hacc, hr'dev, hlz, hnd', hchar', hcomp, hss⟩ :=
        searchStep devs hdev o D rom results hinv hne
      have hunf : searchLoop devs (n + 1) D rom results =
          (if lz2 = 0 then some (bitsToNat bits :: results).reverse
           else searchLoop devs n lz2 (bitsToNat bits) (bitsToNat bits :: results)) := by
        rw [searchLoop, if_neg hE, hpass]
        dsimp only
        rw [hmerge, hacc]
        rfl
      by_cases h0 : lz2 = 0
      · refine ⟨(bitsToNat bits :: results).reverse, by rw [hunf, if_pos h0], ?_, ?_⟩
        · exact List.nodup_reverse.mpr hnd'
        · intro x
          rw [List.mem_reverse]
          constructor
          · intro hx
            exact ((hchar' x).mp hx).1
          · intro hx
            exact hcomp h0 x hx
      · have hinv' : SearchInv devs (some (bitsToNat bits)) lz2 (bitsToNat bits)
            (bitsToNat bits :: results) := ⟨rfl, hr'dev, hlz, h0, hnd', hchar'⟩
        have hcard' : (remainingSet devs (some (bitsToNat bits))).card < n := by
          have := Finset.card_lt_card hss
          omega
        obtain ⟨out, hout, hnodup, hmem⟩ :=
          ih (some (bitsToNat bits)) lz2 (bitsToNat bits)
            (bitsToNat bits :: results) hinv' hcard'
        exact ⟨out, by rw [hunf, if_neg h0]; exact hout, hnodup, hmem⟩

/-- The wired-AND reads depend only on which devices participate, not on
the order the simulation enumerates them. -/
theorem busReadBit_congr (a1 a2 : List Nat) (h : ∀ x, x ∈ a1 ↔ x ∈ a2) (i : Nat) :
    busReadBit a1 i = busReadBit a2 i := by
  unfold busReadBit
  refine decide_eq_decide.mpr ?_
  constructor
  · intro hh d hd
    exact hh d ((h d).mpr hd)
  · intro hh d hd
    exact hh d ((h d).mp hd)

theorem busReadCmpBit_congr (a1 a2 : List Nat) (h : ∀ x, x ∈ a1 ↔ x ∈ a2) (i : Nat) :
    busReadCmpBit a1 i = busReadCmpBit a2 i := by
  unfold busReadCmpBit
  refine decide_eq_decide.mpr ?_
  constructor
  · intro hh d hd
    exact hh d ((h d).mpr hd)
  · intro hh d hd
    exact hh d ((h d).mp hd)

/-- The pass outcome depends only on the set of participating devices. -/
theorem passLoop_congr (D r : Nat) :
    ∀ fuel i (a1 a2 : List Nat) acc lz, (∀ x, x ∈ a1 ↔ x ∈ a2) →
      passLoop D r fuel i a1 acc lz = passLoop D r fuel i a2 acc lz := by
  intro fuel
  induction fuel with
  | zero =>
    intro i a1 a2 acc lz _
    rfl
  | succ n ih =>
    intro i a1 a2 acc lz h
    have hb := busReadBit_congr a1 a2 h i
    have hc := busReadCmpBit_congr a1 a2 h i
    have hd : passDir D r a1 i = passDir D r a2 i := by
      unfold passDir
      rw [hb, hc]
    have hl : passLz D r a1 i lz = passLz D r a2 i lz := by
      unfold passLz
      rw [hb, hc, hd]
    have hfmem : ∀ x, x ∈ a1.filter (fun d => d.testBit i == passDir D r a2 i) ↔
        x ∈ a2.filter (fun d => d.testBit i == passDir D r a2 i) := by
      intro x
      rw [List.mem_filter, List.mem_filter, h x]
    rw [passLoop, passLoop, hb, hc, hd, hl]
    by_cases habort : (busReadBit a2 i && busReadCmpBit a2 i) = true
    · rw [if_pos habort, if_pos habort]
    · rw [if_neg habort, if_neg habort]
      exact ih (i + 1) _ _ _ _ hfmem

/-- The whole search depends only on the set of devices on the bus. -/
theorem searchLoop_congr (d1 d2 : List Nat) (h : ∀ x, x ∈ d1 ↔ x ∈ d2) :
    ∀ fuel D rom results,
      searchLoop d1 fuel D rom results = searchLoop d2 fuel D rom results := by
  have hE : d1.isEmpty = d2.isEmpty := by
    by_cases h1 : d1 = []
    · have h2 : d2 = [] := by
        rcases hd2 : d2 with _ | ⟨y, ys⟩
        · rfl
        · exact absurd ((h y).mpr (by rw [hd2]; exact List.mem_cons_self y ys))
            (by rw [h1]; exact List.not_mem_nil y)
      rw [h1, h2]
    · have h2 : d2 ≠ [] := by
        intro hh
        rcases hd1 : d1 with _ | ⟨y, ys⟩
        · exact h1 hd1
        · exact absurd ((h y).mp (by rw [hd1]; exact List.mem_cons_self y ys))
            (by rw [hh]; exact List.not_mem_nil y)
      have e1 : d1.isEmpty = false := by
        rw [← Bool.not_eq_true]
        intro hc
        exact h1 (List.isEmpty_iff.mp hc)
      have e2 : d2.isEmpty = false := by
        rw [← Bool.not_eq_true]
        intro hc
        exact h2 (List.isEmpty_iff.mp hc)
      rw [e1, e2]
  intro fuel
  induction fuel with
  | zero =>
    intro D rom results
    rfl
  | succ n ih =>
    intro D rom results
    rw [searchLoop, searchLoop, hE, passLoop_congr D rom 64 0 d1 d2 [] 0 h]
    by_cases he2 : d2.isEmpty = true
    · rw [if_pos he2, if_pos he2]
    · rw [if_neg he2, if_neg he2]
      rcases hp : passLoop D rom 64 0 d2 [] 0 with ⟨c, bits, lz⟩
      dsimp only
      by_cases h0 : lz = 0
      · rw [if_pos h0, if_pos h0]
      · rw [if_neg h0, if_neg h0]
        exact ih lz (mergeRom bits rom) _

/-- C1: on a simulated 1-Wire bus exposing N fixed, distinct 64-bit ROM
identifiers whose trailing byte is the correct CRC8 of the first 7 bytes
and whose family-code byte is 0x28, `performRomSearch` terminates (fuel
N + 1 suffices, i.e. `lastDeviceFlag` is reached) and discovers exactly N
identifiers, each exactly once (the output has length N, is duplicate-free
and has exactly the devices as members); the result is independent of the
order in which the simulation enumerates sibling devices. -/
theorem performRomSearch_discovers_all (devs : List Nat) (hnd : devs.Nodup)
    (hdev : ∀ r ∈ devs, r < 2 ^ 64 ∧ romByte r 0 = 0x28 ∧
      calculateCRC8 ((List.range 7).map (romByte r)) = romByte r 7) :
    (∃ out, performRomSearch devs (devs.length + 1) = some out ∧
      out.length = devs.length ∧ out.Nodup ∧ (∀ x, x ∈ out ↔ x ∈ devs)) ∧
    (∀ devs2, devs2.Nodup → (∀ x, x ∈ devs2 ↔ x ∈ devs) →
      performRomSearch devs2 (devs2.length + 1) =
        performRomSearch devs (devs.length + 1)) := by
  have hdev2 : ∀ d ∈ devs, d < 2 ^ 64 ∧ romAccepted d = true := by
    intro d hd
    obtain ⟨h1, h2, h3⟩ := hdev d hd
    refine ⟨h1, ?_⟩
    unfold romAccepted
    rw [h3, h2]
    simp
  constructor
  · have hcard : (remainingSet devs none).card < devs.length + 1 := by
      have he : remainingSet devs none = devs.toFinset := rfl
      rw [he, List.toFinset_card_of_nodup hnd]
      omega
    obtain ⟨out, hout, hnodup, hmem⟩ :=
      searchLoop_run devs hdev2 (devs.length + 1) none 0 0 [] ⟨rfl, rfl, rfl⟩ hcard
    refine ⟨out, hout, ?_, hnodup, hmem⟩
    exact ((List.perm_ext_iff_of_nodup hnodup hnd).mpr hmem).length_eq
  · intro devs2 hnd2 hmem2
    have hlen : devs2.length = devs.length :=
      ((List.perm_ext_iff_of_nodup hnd2 hnd).mpr hmem2).length_eq
    unfold performRomSearch
    rw [hlen, searchLoop_congr devs2 devs hmem2 (devs.length + 1) 0 0 []]

set_option maxRecDepth 8000 in
/-- C1 witness: a concrete two-device bus (family 0x28, valid trailing
CRC8) at a concrete sibling enumeration order. -/
theorem performRomSearch_discovers_all_witness :
    ∃ out, performRomSearch [2161727821137838120, 2954361355555045672]
        ([2161727821137838120, 2954361355555045672].length + 1) = some out ∧
      out.length = [2161727821137838120, 2954361355555045672].length ∧
      out.Nodup ∧
      (∀ x, x ∈ out ↔ x ∈ [2161727821137838120, 2954361355555045672]) :=
  (performRomSearch_discovers_all [2161727821137838120, 2954361355555045672]
    (by decide) (by decide)).1

end SensorSpec
